import Mathlib

/-!
Shallow embedding of the tick-knock ECS core (src/src/ecs and the newest
revisions in src/unnamed): component identity registry, Entity with
components/tags/linked-component chains, EntitySnapshot, Query and the
Engine's event fan-out, plus system-priority insertion.

Modelling conventions:
* Component classes are identified by their registry ids (`Nat`); component
  instances are object references modelled as `Nat`, with a `World` function
  giving each instance's runtime metadata (its class id, whether it owns a
  `next` property, i.e. is an `ILinkedComponent`, and its optional string id).
* JS `Record<number, unknown>` objects are modelled as association lists with
  the same lookup/assign/delete semantics.
* An intrusive linked-component chain is modelled as the ordered list of its
  instances; the `next` pointers are represented by adjacency in that list.
* Signal dispatch is modelled as an event trace; each emitted event is paired
  with the entity state at the moment `emit` runs, so the Engine's synchronous
  forwarding to queries sees exactly the mid-mutation states the real code
  sees.  The `hasHandlers` guard in `dispatchOnComponentAdded/Removed` only
  suppresses delivery when nobody listens, so the trace records the
  notifications delivered to subscribed handlers.
* `while` loops are modelled with a fuel parameter; the fuel bounds used by
  the wrappers are large enough for every state the loops are run on.
-/

namespace TickKnock

/-- Lookup in a JS-object-like association list (first binding wins; bindings
are unique because assignment replaces in place). -/
def aget {β : Type} : List (Nat × β) → Nat → Option β
  | [], _ => none
  | (k', v') :: t, k => if k' = k then some v' else aget t k

/-- Property assignment on a JS-object-like association list: replaces the
existing binding in place, otherwise appends a new binding. -/
def aset {β : Type} : List (Nat × β) → Nat → β → List (Nat × β)
  | [], k, v => [(k, v)]
  | (k', v') :: t, k, v => if k' = k then (k, v) :: t else (k', v') :: aset t k v

/-- Property deletion on a JS-object-like association list. -/
def adel {β : Type} (l : List (Nat × β)) (k : Nat) : List (Nat × β) :=
  l.filter (fun p => p.1 ≠ k)

@[simp] theorem aget_nil {β : Type} (k : Nat) : aget ([] : List (Nat × β)) k = none := rfl

theorem aget_aset_self {β : Type} (l : List (Nat × β)) (k : Nat) (v : β) :
    aget (aset l k v) k = some v := by
  induction l with
  | nil => simp [aset, aget]
  | cons p t ih =>
    by_cases h : p.1 = k
    · simp [aset, h, aget]
    · simp [aset, h, aget, ih]

theorem aget_aset_ne {β : Type} (l : List (Nat × β)) (k k' : Nat) (v : β) (h : k' ≠ k) :
    aget (aset l k v) k' = aget l k' := by
  induction l with
  | nil => simp [aset, aget, Ne.symm h]
  | cons p t ih =>
    by_cases hp : p.1 = k
    · subst hp
      have h' : p.1 ≠ k' := Ne.symm h
      simp [aset, aget, h']
    · simp [aset, hp, aget, ih]

theorem aget_adel_self {β : Type} (l : List (Nat × β)) (k : Nat) :
    aget (adel l k) k = none := by
  induction l with
  | nil => simp [adel]
  | cons p t ih =>
    by_cases h : p.1 = k
    · simpa [adel, List.filter_cons, h] using ih
    · simpa [adel, List.filter_cons, h, aget] using ih

theorem aget_adel_ne {β : Type} (l : List (Nat × β)) (k k' : Nat) (h : k' ≠ k) :
    aget (adel l k) k' = aget l k' := by
  induction l with
  | nil => simp [adel]
  | cons p t ih =>
    by_cases hp : p.1 = k
    · subst hp
      have h' : p.1 ≠ k' := Ne.symm h
      simpa [adel, List.filter_cons, aget, h'] using ih
    · by_cases hk : p.1 = k'
      · subst hk
        simp [adel, List.filter_cons, hp, aget]
      · simpa [adel, List.filter_cons, hp, aget, hk] using ih

theorem adel_aset {β : Type} (l : List (Nat × β)) (k : Nat) (v : β) :
    adel (aset l k v) k = adel l k := by
  induction l with
  | nil => simp [aset, adel]
  | cons p t ih =>
    by_cases h : p.1 = k
    · simp [aset, h, adel, List.filter_cons]
    · simpa [aset, h, adel, List.filter_cons] using ih

/-- A tag is a number or a string (src/ecs/Tag.ts); `isTag` distinguishes it
from a component instance by its runtime type. -/
inductive Tag where
  | num (n : Nat)
  | str (s : String)
deriving DecidableEq, Repr

/-- A value carried by an entity signal: either a component instance
(reference) or a tag. -/
inductive Val where
  | comp (ref : Nat)
  | tag (t : Tag)
deriving DecidableEq, Repr

/-- A dispatched entity notification (`onComponentAdded` / `onComponentRemoved`). -/
inductive Ev where
  | added (v : Val)
  | removed (v : Val)
deriving DecidableEq, Repr

/-- Runtime metadata of a component instance: `cid` is the registry id of the
instance's own class (`Object.getPrototypeOf(c).constructor`), `linked` tells
whether the instance owns a `next` property (`isLinkedComponent`), and `lid`
is its optional `ILinkedComponent.id` string. -/
structure Inst where
  linked : Bool
  cid : Nat
  lid : Option String := none
deriving DecidableEq, Repr

/-- The heap of component instances, indexed by reference. -/
def World : Type := Nat → Inst

/-- Entity state (src/ecs/Entity.ts): `components` maps a class id to the
stored instance (or chain head), `linkedLists` maps a class id to its
linked-component chain (`_linkedComponents`), `tags` is the tag set (kept as
a duplicate-free list). `eid` is the unique `id = entityId++`. -/
structure Entity where
  eid : Nat
  components : List (Nat × Nat) := []
  linkedLists : List (Nat × List Nat) := []
  tags : List Tag := []
deriving DecidableEq, Repr

/-- An event paired with the entity state at the moment the signal was
emitted. -/
abbrev EvT : Type := Entity × Ev

namespace Entity

/-- `Entity.hasTag`. -/
def hasTag (e : Entity) (t : Tag) : Bool := e.tags.contains t

/-- Slot lookup used by `Entity.get(componentClass)` (no string id):
`this._components[cid]`. -/
def getC (e : Entity) (cid : Nat) : Option Nat := aget e.components cid

/-- `Entity.hasComponent(componentClass)` (no string id): `get(...) !== undefined`. -/
def hasC (e : Entity) (cid : Nat) : Bool := (e.getC cid).isSome

/-- `Entity.addTag`: adds to the tag set and fires "added" only if absent. -/
def addTagT (e : Entity) (t : Tag) : Entity × List EvT :=
  if e.hasTag t then (e, [])
  else
    let e1 := { e with tags := e.tags ++ [t] }
    (e1, [(e1, .added (.tag t))])

/-- `Entity.removeTag`: deletes from the tag set and fires "removed" only if
present. -/
def removeTagT (e : Entity) (t : Tag) : Entity × List EvT :=
  if e.hasTag t then
    let e1 := { e with tags := e.tags.filter (fun x => x ≠ t) }
    (e1, [(e1, .removed (.tag t))])
  else (e, [])

end Entity

namespace LinkedComponentList

/-- `LinkedComponentList.add`: walks the chain; throws if the instance is
already a node (before any pointer is written, so a failed call leaves the
chain unchanged); otherwise links it at the tail. -/
def add (chain : List Nat) (c : Nat) : Except String (List Nat) :=
  if chain.contains c then
    .error "Component is already appended, appending it once again will break linked items order"
  else .ok (chain ++ [c])

/-- `LinkedComponentList.remove`: unlinks the node if present, reporting
whether it was found; the chain is unchanged when it was not. -/
def remove (chain : List Nat) (c : Nat) : Bool × List Nat :=
  (chain.contains c, chain.erase c)

end LinkedComponentList

/-- Head of a non-empty chain (`LinkedComponentList.head`; only read on
non-empty chains). -/
def chainHead : List Nat → Nat
  | [] => 0
  | h :: _ => h

namespace Entity

/-- Fuel bound for the `while (!componentList.isEmpty)` loop in
`removeComponent`: one step per chain node plus slack. -/
def entFuel (e : Entity) (cid : Nat) : Nat :=
  ((aget e.linkedLists cid).getD []).length + 2

/-- `Entity.appendComponent` (with the class already resolved to `cid`):
gets-or-creates the chain, appends (`LinkedComponentList.add`, which throws on
a duplicate instance), installs the head in the component slot if the slot was
empty, and fires "added" once for the appended instance. -/
def appendComponentT (e : Entity) (cid ref : Nat) : Except String (Entity × List EvT) :=
  let chain := (aget e.linkedLists cid).getD []
  match LinkedComponentList.add chain ref with
  | .error msg => .error msg
  | .ok chain' =>
    let e1 := { e with linkedLists := aset e.linkedLists cid chain' }
    let e2 :=
      if (aget e1.components cid).isSome then e1
      else { e1 with components := aset e1.components cid (chainHead chain') }
    .ok (e2, [(e2, .added (.comp ref))])

end Entity

/-- The mutually recursive removal operations of `Entity`, indexed by fuel:
`removeC` is `removeComponent`, `loop` is its
`while (!componentList.isEmpty) this.withdraw(...)` loop, and `withdrawC` is
`withdrawComponent`.  One structural recursion on fuel keeps the trio
kernel-reducible; each level calls the previous one. -/
structure RemOps where
  removeC : Entity → Nat → Entity × List EvT × Option Nat
  loop : Entity → Nat → Entity × List EvT
  withdrawC : Entity → Nat → Nat → Entity × List EvT × Option Nat

/-- Fuel-indexed bodies of `removeComponent` / its drain loop /
`withdrawComponent`, translated clause by clause from src/ecs/Entity.ts.
(When the slot is empty while the chain is not — unreachable for well-formed
entities — the loop stops instead of spinning.) -/
def entityRemoveOps (w : World) : Nat → RemOps
  | 0 =>
    { removeC := fun e _ => (e, [], none),
      loop := fun e _ => (e, []),
      withdrawC := fun e _ _ => (e, [], none) }
  | fuel + 1 =>
    let prev := entityRemoveOps w fuel
    { removeC := fun e cid =>
        match aget e.components cid with
        | none => (e, [], none)
        | some v =>
          if (w v).linked then
            let r := prev.loop e cid
            (r.1, r.2, some v)
          else
            let e1 := { e with components := adel e.components cid }
            (e1, [(e1, .removed (.comp v))], some v),
      loop := fun e cid =>
        if ((aget e.linkedLists cid).getD []).isEmpty then (e, [])
        else
          match aget e.components cid with
          | none => (e, [])
          | some r =>
            let s := prev.withdrawC e cid r
            let s2 := prev.loop s.1 cid
            (s2.1, s.2.1 ++ s2.2),
      withdrawC := fun e cid ref =>
        if (w ref).linked then
          match aget e.linkedLists cid with
          | none => (e, [], none)
          | some chain =>
            if (aget e.components cid).isSome then
              let r := LinkedComponentList.remove chain ref
              let e1 :=
                match r.2 with
                | [] => { e with components := adel e.components cid,
                                 linkedLists := adel e.linkedLists cid }
                | h :: _ => { e with components := aset e.components cid h,
                                     linkedLists := aset e.linkedLists cid r.2 }
              if r.1 then (e1, [(e1, .removed (.comp ref))], some ref) else (e1, [], none)
            else (e, [], none)
        else prev.removeC e cid }

namespace Entity

/-- `Entity.removeComponent` (class already resolved to `cid`): returns the
former slot value; for a linked slot it drains the chain via `withdraw`, for a
plain component it deletes the slot and fires "removed" once. -/
def removeComponentT (w : World) (fuel : Nat) (e : Entity) (cid : Nat) :
    Entity × List EvT × Option Nat :=
  (entityRemoveOps w fuel).removeC e cid

/-- The `while (!componentList.isEmpty) this.withdraw(...)` loop of
`removeComponent`: each round withdraws the current slot value. -/
def removeLoop (w : World) (fuel : Nat) (e : Entity) (cid : Nat) : Entity × List EvT :=
  (entityRemoveOps w fuel).loop e cid

/-- `Entity.withdrawComponent` (class already resolved to `cid`): for a
non-linked instance delegates to `remove`; for a linked instance unlinks it
from the chain, re-points the slot at the new head (or deletes slot and chain
when the chain empties), and fires "removed" once if the node was found. -/
def withdrawComponentT (w : World) (fuel : Nat) (e : Entity) (cid ref : Nat) :
    Entity × List EvT × Option Nat :=
  (entityRemoveOps w fuel).withdrawC e cid ref

theorem removeComponentT_succ (w : World) (f : Nat) (e : Entity) (cid : Nat) :
    removeComponentT w (f + 1) e cid =
      match aget e.components cid with
      | none => (e, [], none)
      | some v =>
        if (w v).linked then
          ((removeLoop w f e cid).1, (removeLoop w f e cid).2, some v)
        else
          ({ e with components := adel e.components cid },
           [({ e with components := adel e.components cid }, .removed (.comp v))], some v) := rfl

theorem removeLoop_succ (w : World) (f : Nat) (e : Entity) (cid : Nat) :
    removeLoop w (f + 1) e cid =
      if ((aget e.linkedLists cid).getD []).isEmpty then (e, [])
      else
        match aget e.components cid with
        | none => (e, [])
        | some r =>
          ((removeLoop w f (withdrawComponentT w f e cid r).1 cid).1,
           (withdrawComponentT w f e cid r).2.1 ++
             (removeLoop w f (withdrawComponentT w f e cid r).1 cid).2) := rfl

theorem withdrawComponentT_succ (w : World) (f : Nat) (e : Entity) (cid ref : Nat) :
    withdrawComponentT w (f + 1) e cid ref =
      (if (w ref).linked then
        match aget e.linkedLists cid with
        | none => (e, [], none)
        | some chain =>
          if (aget e.components cid).isSome then
            let r := LinkedComponentList.remove chain ref
            let e1 :=
              match r.2 with
              | [] => { e with components := adel e.components cid,
                               linkedLists := adel e.linkedLists cid }
              | h :: _ => { e with components := aset e.components cid h,
                                   linkedLists := aset e.linkedLists cid r.2 }
            if r.1 then (e1, [(e1, .removed (.comp ref))], some ref) else (e1, [], none)
          else (e, [], none)
      else removeComponentT w f e cid) := rfl

/-- The tail of `addComponent` after the occupied slot (if any) has been
cleared: append for a linked instance, otherwise install and fire "added". -/
def finishAdd (e1 : Entity) (evs : List EvT) (cid ref : Nat) (linked : Bool) :
    Except String (Entity × List EvT) :=
  if linked then
    match appendComponentT e1 cid ref with
    | .error msg => .error msg
    | .ok (e2, evs2) => .ok (e2, evs ++ evs2)
  else
    let e2 := { e1 with components := aset e1.components cid ref }
    .ok (e2, evs ++ [(e2, .added (.comp ref))])

/-- `Entity.addComponent` (class already resolved to `cid`): no-op when the
very same non-linked instance is already installed; otherwise an occupied slot
is first cleared via `remove` (firing "removed"), then the instance is
appended (linked) or installed (plain, firing "added"). -/
def addComponentT (w : World) (e : Entity) (cid ref : Nat) : Except String (Entity × List EvT) :=
  let linked := (w ref).linked
  match aget e.components cid with
  | some v =>
    if !linked && v == ref then .ok (e, [])
    else
      let r := removeComponentT w (e.entFuel cid) e cid
      finishAdd r.1 r.2.1 cid ref linked
  | none => finishAdd e [] cid ref linked

/-- `Entity.add` without a resolve class: a tag goes to `addTag`, a component
instance to `addComponent` under its own class id. -/
def addT (w : World) (e : Entity) (v : Val) : Except String (Entity × List EvT) :=
  match v with
  | .tag t => .ok (e.addTagT t)
  | .comp ref => addComponentT w e ((w ref).cid) ref

end Entity

/-- `Entity.get(componentClass, id)` with a string id: reads the slot; only if
the stored instance is a linked component does it scan from that instance
along the `next` links, returning the first node whose `id` field equals the
given id; otherwise `undefined`.  The walk along `next` pointers is the suffix
of the chain starting at the stored instance (the slot always points at the
chain head for well-formed entities). -/
def Entity.getById (w : World) (e : Entity) (cid : Nat) (id : String) : Option Nat :=
  match aget e.components cid with
  | none => none
  | some r =>
    if (w r).linked then
      (((aget e.linkedLists cid).getD []).dropWhile (fun x => x ≠ r)).find?
        (fun x => (w x).lid == some id)
    else none

/-- `EntitySnapshot`: `cur` holds the reference to the live entity
(`_current`), `prev` is the internal previous-state entity (`_previous`,
a fresh `new Entity()` initially). -/
structure EntitySnapshot where
  cur : Option Entity := none
  prev : Entity := { eid := 0 }
deriving DecidableEq, Repr

/-- The identity test `result.current !== this` of `takeSnapshot`, phrased
positively: whether the snapshot's current entity is already this entity
(object identity coincides with `id` equality, ids being unique). -/
def snapCurrentIs (s : EntitySnapshot) (e : Entity) : Bool :=
  match s.cur with
  | some c => c.eid == e.eid
  | none => false

/-- Whether the snapshot's `current` entity has the component class `cid`
(`snapshot.current.has(...)`). -/
def snapCurrentHasC (s : EntitySnapshot) (cid : Nat) : Bool :=
  match s.cur with
  | some c => c.hasC cid
  | none => false

/-- `Entity.takeSnapshot(result, changedComponentOrTag, resolveClass)`:
if the snapshot's current entity is not this one, point it here and
`copyFrom` this entity into the previous state (shallow copies; chains are
shared by reference in the source, here copied as values).  Then reverse the
single changed item in the previous state: a tag or component the entity
currently has is deleted from the previous state, one it currently lacks is
put back.  `resolveCid` models the optional `resolveClass` argument; when
absent the changed component's own class id is used. -/
def Entity.takeSnapshot (w : World) (e : Entity) (s : EntitySnapshot)
    (changed : Option Val) (resolveCid : Option Nat) : EntitySnapshot :=
  let prev0 :=
    if snapCurrentIs s e then s.prev
    else { s.prev with components := e.components, linkedLists := e.linkedLists,
                       tags := e.tags }
  match changed with
  | none => { cur := some e, prev := prev0 }
  | some (.tag t) =>
    let tags' :=
      if e.hasTag t then prev0.tags.filter (fun x => x ≠ t)
      else if prev0.tags.contains t then prev0.tags else prev0.tags ++ [t]
    { cur := some e, prev := { prev0 with tags := tags' } }
  | some (.comp ref) =>
    let cid := resolveCid.getD ((w ref).cid)
    let comps' :=
      if e.hasC cid then adel prev0.components cid
      else aset prev0.components cid ref
    { cur := some e, prev := { prev0 with components := comps' } }

/-- A query notification: "entity added" / "entity removed", carrying the id
of the affected entity (the snapshot payload is not modelled here). -/
inductive QEv where
  | qadded (i : Nat)
  | qremoved (i : Nat)
deriving DecidableEq, Repr

namespace Query

/-- `Query.updateHelper`: `clear` the helper, `copyFrom` the entity (the
helper keeps its own id), then `add` the component or tag.  The `add` cannot
throw (an occupied linked slot is emptied before appending), so the error
branch is unreachable. -/
def updateHelper (w : World) (e : Entity) (v : Val) : Entity :=
  let h0 : Entity := { eid := 0, components := e.components,
                       linkedLists := e.linkedLists, tags := e.tags }
  match Entity.addT w h0 v with
  | .ok r => r.1
  | .error _ => h0

/-- `Query.entityAdded`: adds the entity and fires "entity added" when it is
not yet in the result list and the predicate accepts it. -/
def entityAdded (p : Entity → Bool) (q : List Nat) (e : Entity) : List Nat × List QEv :=
  if !q.contains e.eid && p e then (q ++ [e.eid], [.qadded e.eid]) else (q, [])

/-- `Query.entityRemoved`: removes the entity and fires "entity removed" when
it is in the result list. -/
def entityRemoved (q : List Nat) (e : Entity) : List Nat × List QEv :=
  if q.contains e.eid then (q.erase e.eid, [.qremoved e.eid]) else (q, [])

/-- `Query.entityComponentAdded`: re-tests the predicate on the helper entity
(current state plus the incoming change) and transitions in either
direction. -/
def entityComponentAdded (p : Entity → Bool) (w : World) (q : List Nat) (e : Entity)
    (v : Val) : List Nat × List QEv :=
  let isMatch := p (updateHelper w e v)
  if !q.contains e.eid && isMatch then (q ++ [e.eid], [.qadded e.eid])
  else if q.contains e.eid && !isMatch then (q.erase e.eid, [.qremoved e.eid])
  else (q, [])

/-- `Query.entityComponentRemoved`: re-tests with the helper representing the
state including the just-removed item, compares against the real
(already-updated) entity, and transitions in either direction. -/
def entityComponentRemoved (p : Entity → Bool) (w : World) (q : List Nat) (e : Entity)
    (v : Val) : List Nat × List QEv :=
  let helper := updateHelper w e v
  if q.contains e.eid && p helper && !p e then (q.erase e.eid, [.qremoved e.eid])
  else if !q.contains e.eid && p e && !p helper then (q ++ [e.eid], [.qadded e.eid])
  else (q, [])

end Query

/-- The predicate produced by `QueryBuilder.build()`: the entity must have
every required component class and every required tag (`hasAll`). -/
def hasAllB (cids : List Nat) (qtags : List Tag) (e : Entity) : Bool :=
  cids.all (fun c => (aget e.components c).isSome) &&
    qtags.all (fun t => e.tags.contains t)

/-! ### Engine with one attached query (src/ecs/Engine.ts)

The engine owns the entity pool and forwards every entity signal to each
registered query synchronously.  Since the queries are independent and
identical in treatment, the state carries one query's entity list. -/

/-- Engine state: the entity pool (insertion order) and the entity list of
one attached query. -/
structure EngSt where
  pool : List Entity := []
  q : List Nat := []
deriving DecidableEq, Repr

/-- `_entityMap.get(id)` / locating an entity in the pool by id. -/
def poolGet (pool : List Entity) (i : Nat) : Option Entity :=
  pool.find? (fun e => e.eid == i)

/-- Write back the mutated entity (same object, hence same id) into the
pool. -/
def updatePool (pool : List Entity) (e : Entity) : List Entity :=
  pool.map (fun x => if x.eid == e.eid then e else x)

/-- A structural mutation driven by host code through the engine:
entity add/remove, component add/remove (`addComp` resolves the class from
the instance itself, as `entity.add(component)` does), tag add/remove. -/
inductive Mut where
  | addEntity (e : Entity)
  | removeEntity (i : Nat)
  | addComp (i ref : Nat)
  | removeComp (i cid : Nat)
  | addTag (i : Nat) (t : Tag)
  | removeTag (i : Nat) (t : Tag)
deriving DecidableEq, Repr

/-- Engine fan-out of one entity signal (`Engine.onComponentAdded` /
`onComponentRemoved`): the query's corresponding handler runs at the entity
state current when the signal was emitted. -/
def applyEv (p : Entity → Bool) (w : World) (st : EngSt) (ev : EvT) : EngSt :=
  let st1 : EngSt := { st with pool := updatePool st.pool ev.1 }
  match ev.2 with
  | .added v => { st1 with q := (Query.entityComponentAdded p w st1.q ev.1 v).1 }
  | .removed v => { st1 with q := (Query.entityComponentRemoved p w st1.q ev.1 v).1 }

/-- Forward a whole emission trace, in order. -/
def applyTrace (p : Entity → Bool) (w : World) (st : EngSt) (evs : List EvT) : EngSt :=
  evs.foldl (applyEv p w) st

/-- One engine-level structural mutation with its full synchronous dispatch:
the entity operation runs, and every emitted signal is forwarded to the query
at the entity state it was emitted in.  A mutation addressed to an entity id
not in the pool mutates an unconnected entity and reaches no query. -/
def step (p : Entity → Bool) (w : World) (st : EngSt) (m : Mut) : EngSt :=
  match m with
  | .addEntity e =>
    if (poolGet st.pool e.eid).isSome then st
    else
      let st1 : EngSt := { st with pool := st.pool ++ [e] }
      { st1 with q := (Query.entityAdded p st1.q e).1 }
  | .removeEntity i =>
    match poolGet st.pool i with
    | none => st
    | some e =>
      let st1 : EngSt := { st with pool := st.pool.filter (fun x => x.eid ≠ i) }
      { st1 with q := (Query.entityRemoved st1.q e).1 }
  | .addComp i ref =>
    match poolGet st.pool i with
    | none => st
    | some e =>
      match Entity.addComponentT w e ((w ref).cid) ref with
      | .error _ => st
      | .ok r =>
        let st1 := applyTrace p w st r.2
        { st1 with pool := updatePool st1.pool r.1 }
  | .removeComp i cid =>
    match poolGet st.pool i with
    | none => st
    | some e =>
      let r := Entity.removeComponentT w (e.entFuel cid) e cid
      let st1 := applyTrace p w st r.2.1
      { st1 with pool := updatePool st1.pool r.1 }
  | .addTag i t =>
    match poolGet st.pool i with
    | none => st
    | some e =>
      let r := e.addTagT t
      let st1 := applyTrace p w st r.2
      { st1 with pool := updatePool st1.pool r.1 }
  | .removeTag i t =>
    match poolGet st.pool i with
    | none => st
    | some e =>
      let r := e.removeTagT t
      let st1 := applyTrace p w st r.2
      { st1 with pool := updatePool st1.pool r.1 }

/-- A fresh engine with one (freshly attached, hence empty) query. -/
def engInit : EngSt := {}

/-- Run a sequence of structural mutations. -/
def runMuts (p : Entity → Bool) (w : World) (st : EngSt) (ms : List Mut) : EngSt :=
  ms.foldl (step p w) st

/-- Instances stored in the component map are stored under their own class id
(no `resolveClass` aliasing), which is what the engine's component fan-out
assumes when a query rebuilds the pre-change state. -/
def CompConsistent (w : World) (e : Entity) : Prop :=
  ∀ k r, aget e.components k = some r → (w r).cid = k

/-- Precondition on a mutation: entities handed to `addEntity` store their
components under their own class ids. -/
def MutOK (w : World) (m : Mut) : Prop :=
  match m with
  | .addEntity e => CompConsistent w e
  | _ => True

/-! ### Component identity registry (src/ecs/ComponentId.ts) -/

/-- Registry state: the memoized `__componentClassId__` fields (a table from
class token to id, since each class object carries its own field) and the
module-level `componentClassId` counter. -/
structure RegSt where
  table : List (Nat × Nat)
  counter : Nat
deriving DecidableEq, Repr

/-- The registry at process start: nothing assigned, counter at 1. -/
def regInit : RegSt := { table := [], counter := 1 }

/-- `getComponentId(component, createIfNotExists)`: returns the memoized id
when the class owns one; otherwise, when `createIfNotExists`, stores and
returns the next counter value; otherwise `undefined`. -/
def getComponentId (st : RegSt) (ty : Nat) (create : Bool) : Option Nat × RegSt :=
  match aget st.table ty with
  | some i => (some i, st)
  | none =>
    if create then
      (some st.counter, { table := (ty, st.counter) :: st.table, counter := st.counter + 1 })
    else (none, st)

/-- Run a sequence of `getComponentId` calls (type, createIfNotExists). -/
def runReg (st : RegSt) (calls : List (Nat × Bool)) : RegSt :=
  calls.foldl (fun s c => (getComponentId s c.1 c.2).2) st

/-! ### Systems and `Engine.addSystem` -/

/-- A system as the engine sees it: its identity and the `priority` field the
engine assigns on insertion. -/
structure Sys where
  sid : Nat
  priority : Int
deriving DecidableEq, Repr

/-- `Engine.addSystem(system, priority)`: sets `system.priority`, splices the
system in before the first strictly-higher-priority system (or at the end),
then invokes `system.onAddedToEngine(this)`.  The second component records
that hook invocation: the system's id paired with the engine's system list as
the hook observes it. -/
def addSystem (systems : List Sys) (sid : Nat) (p : Int) : List Sys × (Nat × List Sys) :=
  let s : Sys := { sid := sid, priority := p }
  let inserted :=
    if systems.isEmpty then [s]
    else
      match systems.findIdx? (fun v => p < v.priority) with
      | none => systems ++ [s]
      | some idx => systems.insertIdx idx s
  (inserted, (sid, inserted))

/-! ### Support lemmas -/

theorem aget_mem {β : Type} (l : List (Nat × β)) (k : Nat) (v : β)
    (h : aget l k = some v) : (k, v) ∈ l := by
  induction l with
  | nil => simp [aget] at h
  | cons pr t ih =>
    by_cases hp : pr.1 = k
    · obtain ⟨a, b⟩ := pr
      simp only at hp
      subst hp
      simp [aget] at h
      subst h
      exact List.mem_cons_self _ _
    · right
      exact ih (by simpa [aget, hp] using h)

/-- Registry invariant: every assigned id is below the counter, and no two
table entries share an id. -/
def RegInv (st : RegSt) : Prop :=
  (∀ pr ∈ st.table, pr.2 < st.counter) ∧
  (∀ pr ∈ st.table, ∀ qr ∈ st.table, pr.2 = qr.2 → pr.1 = qr.1)

theorem regInv_init : RegInv regInit := by
  constructor <;> intro pr hpr <;> simp [regInit] at hpr

theorem regInv_step (st : RegSt) (ty : Nat) (c : Bool) (h : RegInv st) :
    RegInv (getComponentId st ty c).2 := by
  obtain ⟨hb, hu⟩ := h
  unfold getComponentId
  cases hg : aget st.table ty with
  | some i => exact ⟨hb, hu⟩
  | none =>
    by_cases hc : c
    · subst hc
      constructor
      · intro pr hpr
        simp only at hpr
        rcases List.mem_cons.mp hpr with h1 | h1
        · subst h1; simp
        · exact Nat.lt_succ_of_lt (hb pr h1)
      · intro pr hpr qr hqr hpq
        simp only at hpr hqr
        rcases List.mem_cons.mp hpr with h1 | h1 <;>
          rcases List.mem_cons.mp hqr with h2 | h2
        · rw [h1, h2]
        · exfalso; rw [h1] at hpq; exact absurd (hpq ▸ hb qr h2) (lt_irrefl _)
        · exfalso; rw [h2] at hpq; exact absurd (hpq ▸ hb pr h1) (lt_irrefl _)
        · exact hu pr h1 qr h2 hpq
    · simp only [Bool.not_eq_true] at hc
      subst hc
      exact ⟨hb, hu⟩

theorem regInv_run (calls : List (Nat × Bool)) :
    ∀ st : RegSt, RegInv st → RegInv (runReg st calls) := by
  induction calls with
  | nil => intro st h; exact h
  | cons c t ih =>
    intro st h
    exact ih _ (regInv_step st c.1 c.2 h)

theorem reg_preserve (st : RegSt) (ty i : Nat) (h : aget st.table ty = some i)
    (ty' : Nat) (c : Bool) : aget ((getComponentId st ty' c).2).table ty = some i := by
  unfold getComponentId
  cases hg : aget st.table ty' with
  | some j => exact h
  | none =>
    by_cases hc : c
    · subst hc
      simp only [aget]
      have hne : ty' ≠ ty := by
        intro he; rw [he] at hg; rw [hg] at h; exact Option.noConfusion h
      simp [hne, h]
    · simp only [Bool.not_eq_true] at hc
      subst hc
      exact h

theorem reg_preserve_run (more : List (Nat × Bool)) :
    ∀ (st : RegSt) (ty i : Nat), aget st.table ty = some i →
      aget (runReg st more).table ty = some i := by
  induction more with
  | nil => intro st ty i h; exact h
  | cons c t ih =>
    intro st ty i h
    exact ih _ ty i (reg_preserve st ty i h c.1 c.2)

/-- C6: starting from process start, once `getComponentId` has assigned an id
to a type, every later call for that type (with either flag) returns that same
id, and distinct types never carry the same id. -/
theorem getComponentId_stable_and_injective (calls : List (Nat × Bool)) :
    (∀ ty i, aget (runReg regInit calls).table ty = some i →
       ∀ (more : List (Nat × Bool)) (c : Bool),
         (getComponentId (runReg (runReg regInit calls) more) ty c).1 = some i) ∧
    (∀ t1 t2 i1 i2, aget (runReg regInit calls).table t1 = some i1 →
       aget (runReg regInit calls).table t2 = some i2 → t1 ≠ t2 → i1 ≠ i2) := by
  constructor
  · intro ty i h more c
    have h2 := reg_preserve_run more _ ty i h
    unfold getComponentId
    rw [h2]
  · intro t1 t2 i1 i2 h1 h2 hne heq
    have hinv : RegInv (runReg regInit calls) := regInv_run calls regInit regInv_init
    have m1 := aget_mem _ _ _ h1
    have m2 := aget_mem _ _ _ h2
    exact hne (hinv.2 (t1, i1) m1 (t2, i2) m2 (by simpa using heq))

/-- C6 witness: after assigning ids to types 5 and 6, a later call for type 5
still yields id 1, and the ids of 5 and 6 differ. -/
theorem getComponentId_stable_and_injective_witness :
    (getComponentId (runReg (runReg regInit [(5, true), (6, true)]) [(7, true)]) 5 false).1
        = some 1 ∧ (1 : Nat) ≠ 2 := by
  have h := getComponentId_stable_and_injective [(5, true), (6, true)]
  refine ⟨h.1 5 1 (by decide) [(7, true)] false, ?_⟩
  exact h.2 5 6 1 2 (by decide) (by decide) (by decide)

/-! ### C7: `Engine.addSystem` ordering -/

theorem take_drop_of_all_le (p : Int) (l : List Sys)
    (h : ∀ v ∈ l, decide (p < v.priority) = false) :
    l.takeWhile (fun v => decide (v.priority ≤ p)) = l ∧
      l.dropWhile (fun v => decide (v.priority ≤ p)) = [] := by
  induction l with
  | nil => simp
  | cons x t ih =>
    have hx : x.priority ≤ p := by
      have := h x (List.mem_cons_self x t)
      simp only [decide_eq_false_iff_not, not_lt] at this
      exact this
    have ht := ih (fun v hv => h v (List.mem_cons_of_mem x hv))
    simp [List.takeWhile_cons, List.dropWhile_cons, hx, ht.1, ht.2]

theorem insert_core_eq (p : Int) (s : Sys) (l : List Sys) :
    (match l.findIdx? (fun v => decide (p < v.priority)) with
     | none => l ++ [s]
     | some idx => l.insertIdx idx s) =
    l.takeWhile (fun v => decide (v.priority ≤ p)) ++
      s :: l.dropWhile (fun v => decide (v.priority ≤ p)) := by
  induction l with
  | nil => simp
  | cons x t ih =>
    by_cases hx : p < x.priority
    · have hx' : ¬ x.priority ≤ p := not_le.mpr hx
      simp [List.findIdx?_cons, hx, List.takeWhile_cons, List.dropWhile_cons, hx',
        List.insertIdx]
    · have hx' : x.priority ≤ p := le_of_not_lt hx
      simp only [List.findIdx?_cons, List.findIdx?_succ, decide_eq_true_eq, hx, if_false,
        List.takeWhile_cons, List.dropWhile_cons, hx', decide_True, if_true]
      cases ht : t.findIdx? (fun v => decide (p < v.priority)) with
      | none =>
        rw [ht] at ih
        simpa [Option.map_none', List.cons_append] using ih
      | some j =>
        rw [ht] at ih
        simp only [Option.map_some', List.insertIdx_succ_cons]
        simpa [List.cons_append] using ih

theorem addSystem_eq_insert (systems : List Sys) (sid : Nat) (p : Int) :
    (addSystem systems sid p).1 =
      systems.takeWhile (fun v => decide (v.priority ≤ p)) ++
        { sid := sid, priority := p } :: systems.dropWhile (fun v => decide (v.priority ≤ p)) := by
  have hcore := insert_core_eq p { sid := sid, priority := p } systems
  cases systems with
  | nil => simp [addSystem]
  | cons x t => simpa [addSystem] using hcore

theorem dropWhile_gt_of_sorted (p : Int) (l : List Sys)
    (hs : l.Pairwise (fun a b => a.priority ≤ b.priority)) :
    ∀ b ∈ l.dropWhile (fun v => decide (v.priority ≤ p)), p < b.priority := by
  induction l with
  | nil => simp
  | cons x t ih =>
    by_cases hx : x.priority ≤ p
    · simp only [List.dropWhile_cons, hx, decide_True, if_true]
      exact ih (List.Pairwise.of_cons hs)
    · simp only [List.dropWhile_cons, hx, decide_False, if_false]
      intro b hb
      rcases List.mem_cons.mp hb with h1 | h1
      · subst h1; exact lt_of_not_le hx
      · exact lt_of_lt_of_le (lt_of_not_le hx) (List.rel_of_pairwise_cons hs h1)

/-- C7: `addSystem` keeps the system list in ascending priority order with
FIFO tie-break — the new system lands after every system of priority `≤ p`
(including equal priorities) and before every strictly higher one, existing
relative order untouched; the "added to engine" hook is invoked after
insertion (it observes the list with the system present); and the concrete
scenarios: adding priorities [300, 100, 200] reads back as [100, 200, 300],
and two systems of equal priority keep insertion order. -/
theorem addSystem_priority_order (systems : List Sys) (sid : Nat) (p : Int)
    (hs : systems.Pairwise (fun a b => a.priority ≤ b.priority)) :
    ((addSystem systems sid p).1 =
       systems.takeWhile (fun v => decide (v.priority ≤ p)) ++
         { sid := sid, priority := p } ::
           systems.dropWhile (fun v => decide (v.priority ≤ p))) ∧
    ((addSystem systems sid p).1).Pairwise (fun a b => a.priority ≤ b.priority) ∧
    (∀ b ∈ systems.dropWhile (fun v => decide (v.priority ≤ p)), p < b.priority) ∧
    (addSystem systems sid p).2 = (sid, (addSystem systems sid p).1) ∧
    ((addSystem ((addSystem ((addSystem [] 1 300).1) 2 100).1) 3 200).1).map Sys.priority
        = [100, 200, 300] ∧
    ((addSystem ((addSystem [] 1 5).1) 2 5).1).map Sys.sid = [1, 2] := by
  have hins := addSystem_eq_insert systems sid p
  have hdrop := dropWhile_gt_of_sorted p systems hs
  refine ⟨hins, ?_, hdrop, rfl, by decide, by decide⟩
  rw [hins]
  rw [List.pairwise_append]
  refine ⟨hs.sublist (List.takeWhile_sublist _), ?_, ?_⟩
  · refine List.Pairwise.cons ?_ (hs.sublist (List.dropWhile_sublist _))
    intro b hb
    exact le_of_lt (hdrop b hb)
  · intro a ha b hb
    have ha' : a.priority ≤ p := by
      have := List.mem_takeWhile_imp ha
      simpa using this
    rcases List.mem_cons.mp hb with h1 | h1
    · rw [h1]; exact ha'
    · exact le_of_lt (lt_of_le_of_lt ha' (hdrop b h1))

/-- C7 witness: inserting priority 2 into the sorted list [1, 3] places it in
the middle, with the hook observing the post-insertion list. -/
theorem addSystem_priority_order_witness :
    ((addSystem [⟨1, 1⟩, ⟨2, 3⟩] 9 2).1 = [⟨1, 1⟩, ⟨9, 2⟩, ⟨2, 3⟩]) ∧
      ((addSystem [⟨1, 1⟩, ⟨2, 3⟩] 9 2).1).Pairwise (fun a b => a.priority ≤ b.priority) := by
  have h := addSystem_priority_order [⟨1, 1⟩, ⟨2, 3⟩] 9 2 (by decide)
  exact ⟨by rw [h.1]; rfl, h.2.1⟩

/-! ### Entity-level theorems -/

/-- A world in which every instance is a plain (non-linked) component whose
class id equals its own reference; used to instantiate theorems. -/
def wNL : World := fun r => { linked := false, cid := r }

/-- A world of linked components, all of class 7; instance 11 carries the
string id "a". -/
def wLk : World := fun r => { linked := true, cid := 7,
                              lid := if r = 11 then some "a" else none }

theorem removeComponentT_simple (w : World) (fuel : Nat) (e : Entity) (cid v : Nat)
    (hf : 1 ≤ fuel) (hslot : aget e.components cid = some v)
    (hv : (w v).linked = false) :
    Entity.removeComponentT w fuel e cid =
      ({ e with components := adel e.components cid },
       [({ e with components := adel e.components cid }, .removed (.comp v))], some v) := by
  obtain ⟨f, rfl⟩ : ∃ f, fuel = f + 1 := ⟨fuel - 1, by omega⟩
  rw [Entity.removeComponentT_succ]
  simp [hslot, hv]

/-- C8: appending an instance that is already a node of the chain raises the
"already appended" error, both at the chain level (`LinkedComponentList.add`)
and through `Entity.appendComponent`; the error is thrown before any link is
written, so the chain is left unchanged by the failed call. -/
theorem append_duplicate_is_error (e : Entity) (cid ref : Nat) (chain : List Nat)
    (hch : aget e.linkedLists cid = some chain) (hin : ref ∈ chain) :
    Entity.appendComponentT e cid ref =
        .error "Component is already appended, appending it once again will break linked items order" ∧
      LinkedComponentList.add chain ref =
        .error "Component is already appended, appending it once again will break linked items order" := by
  constructor
  · simp [Entity.appendComponentT, hch, LinkedComponentList.add, hin]
  · simp [LinkedComponentList.add, hin]

/-- C8 witness: re-appending instance 10, already the sole node of entity 1's
chain for class 7, errors at both levels. -/
theorem append_duplicate_is_error_witness :
    Entity.appendComponentT { eid := 1, components := [(7, 10)], linkedLists := [(7, [10])] } 7 10 =
        .error "Component is already appended, appending it once again will break linked items order" ∧
      LinkedComponentList.add [10] 10 =
        .error "Component is already appended, appending it once again will break linked items order" :=
  append_duplicate_is_error _ 7 10 [10] rfl (by decide)

/-- C10: `Entity.get(componentClass, id)` with a string id returns `undefined`
whenever the stored slot instance is not a linked component, even though an
instance of that class is present; and when the id-based scan does return an
instance, that instance is a node of the class's linked chain whose `id` field
equals the requested id. -/
theorem getById_linked_scan (w : World) (e : Entity) (cid : Nat) (id : String) :
    (∀ r, aget e.components cid = some r → (w r).linked = false →
       Entity.getById w e cid id = none) ∧
    (∀ x, Entity.getById w e cid id = some x →
       (w x).lid = some id ∧ x ∈ (aget e.linkedLists cid).getD []) := by
  constructor
  · intro r hr hl
    simp [Entity.getById, hr, hl]
  · intro x hx
    unfold Entity.getById at hx
    cases hr : aget e.components cid with
    | none => simp [hr] at hx
    | some r =>
      cases hl : (w r).linked with
      | false => simp [hr, hl] at hx
      | true =>
        simp only [hr, hl, if_true] at hx
        have hpred := List.find?_some hx
        have hmem := List.mem_of_find?_eq_some hx
        constructor
        · simpa using hpred
        · exact (List.dropWhile_sublist _).subset hmem

/-- C10 witness: the slot of class 3 stores plain instance 10, so a
lookup-by-id returns nothing; and scanning entity 2's chain [10, 11] for id
"a" returns node 11, whose id is "a" and which is in the chain. -/
theorem getById_linked_scan_witness :
    Entity.getById wNL { eid := 1, components := [(3, 10)] } 3 "a" = none ∧
      ((wLk 11).lid = some "a" ∧
        11 ∈ (aget (Entity.mk 2 [(7, 10)] [(7, [10, 11])] []).linkedLists 7).getD []) := by
  constructor
  · exact (getById_linked_scan wNL { eid := 1, components := [(3, 10)] } 3 "a").1 10 rfl rfl
  · exact (getById_linked_scan wLk (Entity.mk 2 [(7, 10)] [(7, [10, 11])] []) 7 "a").2 11
      (by decide)

/-- C5: after `takeSnapshot` with a changed component, the previous state has
the component's class exactly when the entity currently lacks it (the
single-item reversal), while the snapshot's current entity — this entity —
has it exactly when the entity does. -/
theorem takeSnapshot_reversal (w : World) (e : Entity) (s : EntitySnapshot) (ref : Nat) :
    ((Entity.takeSnapshot w e s (some (.comp ref)) none).prev.hasC ((w ref).cid)
        = !(e.hasC ((w ref).cid))) ∧
    (snapCurrentHasC (Entity.takeSnapshot w e s (some (.comp ref)) none) ((w ref).cid)
        = e.hasC ((w ref).cid)) := by
  unfold Entity.takeSnapshot snapCurrentHasC Entity.hasC Entity.getC
  by_cases hh : (aget e.components ((w ref).cid)).isSome = true <;>
    by_cases hcur : snapCurrentIs s e = true <;>
      simp [hh, hcur, aget_adel_self, aget_aset_self]

/-- C9: `takeSnapshot` refreshes the previous state from this entity only when
the snapshot's current entity is not already this entity; when it is, the
previous state keeps its earlier contents unchanged except for the single
changed-item reversal at the changed component's class. -/
theorem takeSnapshot_copy_condition (w : World) (e : Entity) (s : EntitySnapshot) (ref : Nat) :
    (snapCurrentIs s e = false →
       (∀ k, k ≠ (w ref).cid →
          aget (Entity.takeSnapshot w e s (some (.comp ref)) none).prev.components k
            = aget e.components k) ∧
       (Entity.takeSnapshot w e s (some (.comp ref)) none).prev.tags = e.tags ∧
       (Entity.takeSnapshot w e s (some (.comp ref)) none).prev.linkedLists = e.linkedLists) ∧
    (snapCurrentIs s e = true →
       (∀ k, k ≠ (w ref).cid →
          aget (Entity.takeSnapshot w e s (some (.comp ref)) none).prev.components k
            = aget s.prev.components k) ∧
       (Entity.takeSnapshot w e s (some (.comp ref)) none).prev.tags = s.prev.tags ∧
       (Entity.takeSnapshot w e s (some (.comp ref)) none).prev.linkedLists
          = s.prev.linkedLists) := by
  constructor
  · intro hcur
    refine ⟨?_, ?_, ?_⟩
    · intro k hk
      by_cases hh : e.hasC ((w ref).cid) <;>
        simp [Entity.takeSnapshot, hcur, hh, aget_adel_ne _ _ _ hk, aget_aset_ne _ _ _ _ hk]
    · by_cases hh : e.hasC ((w ref).cid) <;> simp [Entity.takeSnapshot, hcur, hh]
    · by_cases hh : e.hasC ((w ref).cid) <;> simp [Entity.takeSnapshot, hcur, hh]
  · intro hcur
    refine ⟨?_, ?_, ?_⟩
    · intro k hk
      by_cases hh : e.hasC ((w ref).cid) <;>
        simp [Entity.takeSnapshot, hcur, hh, aget_adel_ne _ _ _ hk, aget_aset_ne _ _ _ _ hk]
    · by_cases hh : e.hasC ((w ref).cid) <;> simp [Entity.takeSnapshot, hcur, hh]
    · by_cases hh : e.hasC ((w ref).cid) <;> simp [Entity.takeSnapshot, hcur, hh]

/-- C9 witness: for an entity with components at classes 3 and 5 and a
snapshot currently pointing elsewhere, the refresh copies class 5 from the
entity; for a snapshot already pointing at the entity, class 5 of the
previous state is untouched. -/
theorem takeSnapshot_copy_condition_witness :
    (aget (Entity.takeSnapshot wNL (Entity.mk 1 [(3, 10), (5, 20)] [] [])
        { cur := none, prev := { eid := 0 } } (some (.comp 10)) none).prev.components 5
      = aget (Entity.mk 1 [(3, 10), (5, 20)] [] []).components 5) ∧
    (aget (Entity.takeSnapshot wNL (Entity.mk 1 [(3, 10), (5, 20)] [] [])
        { cur := some (Entity.mk 1 [] [] []), prev := { eid := 0, components := [(5, 99)] } }
        (some (.comp 10)) none).prev.components 5
      = aget ({ eid := 0, components := [(5, 99)] } : Entity).components 5) := by
  constructor
  · exact ((takeSnapshot_copy_condition wNL (Entity.mk 1 [(3, 10), (5, 20)] [] [])
      { cur := none, prev := { eid := 0 } } 10).1 rfl).1 5 (by decide)
  · exact ((takeSnapshot_copy_condition wNL (Entity.mk 1 [(3, 10), (5, 20)] [] [])
      { cur := some (Entity.mk 1 [] [] []), prev := { eid := 0, components := [(5, 99)] } }
      10).2 rfl).1 5 (by decide)

/-- C2: adding a distinct non-linked instance over an installed one fires
exactly one "removed" carrying the old instance and then exactly one "added"
carrying the new one, in that order (the slot ends up holding the new
instance); adding the very same installed instance fires nothing and leaves
the entity unchanged. -/
theorem addComponent_replace_events (w : World) (e : Entity) (cid old new : Nat)
    (hslot : aget e.components cid = some old)
    (hold : (w old).linked = false) (hnew : (w new).linked = false) :
    (old ≠ new →
       Entity.addComponentT w e cid new =
         .ok ({ e with components := aset (adel e.components cid) cid new },
              [({ e with components := adel e.components cid }, .removed (.comp old)),
               ({ e with components := aset (adel e.components cid) cid new },
                .added (.comp new))])) ∧
    Entity.addComponentT w e cid old = .ok (e, []) := by
  constructor
  · intro hne
    have hbeq : (old == new) = false := by simp [hne]
    have hr := removeComponentT_simple w (e.entFuel cid) e cid old
      (by simp [Entity.entFuel]) hslot hold
    simp [Entity.addComponentT, hslot, hnew, hbeq, hr, Entity.finishAdd]
  · simp [Entity.addComponentT, hslot, hold]

/-- C2 witness: on an entity holding instance 10 at class 3, adding instance
11 fires removed(10) then added(11); adding instance 10 again is a silent
no-op. -/
theorem addComponent_replace_events_witness :
    (Entity.addComponentT wNL { eid := 1, components := [(3, 10)] } 3 11 =
       .ok ({ eid := 1, components := [(3, 11)] },
            [(⟨1, [], [], []⟩, .removed (.comp 10)), (⟨1, [(3, 11)], [], []⟩, .added (.comp 11))])) ∧
    Entity.addComponentT wNL { eid := 1, components := [(3, 10)] } 3 10 =
      .ok ({ eid := 1, components := [(3, 10)] }, []) := by
  have h := addComponent_replace_events wNL { eid := 1, components := [(3, 10)] } 3 10 11
    rfl rfl rfl
  exact ⟨h.1 (by decide), h.2⟩

/-! ### C4: `add` of a linked instance -/

/-- C4 counterexample: on an entity whose class-7 chain already holds linked
instance 10, `add`ing the distinct linked instance 11 does NOT leave 10 in
place — the call empties the chain first, firing removed(10), and the final
state holds only 11.  This refutes "add of a linked-type instance never
removes or replaces the existing instances". -/
theorem add_linked_removes_existing :
    (Entity.addComponentT wLk ⟨1, [(7, 10)], [(7, [10])], []⟩ 7 11).toOption =
      some (⟨1, [(7, 11)], [(7, [11])], []⟩,
           [(⟨1, [], [], []⟩, .removed (.comp 10)),
            (⟨1, [(7, 11)], [(7, [11])], []⟩, .added (.comp 11))]) ∧
    ((aget ((⟨1, [(7, 11)], [(7, [11])], []⟩ : Entity)).linkedLists 7).getD []).contains 10
        = false := by
  constructor
  · decide
  · decide

theorem removeLoop_drains (w : World) (cid : Nat) :
    ∀ (chain : List Nat) (e : Entity) (fuel : Nat),
      chain.length + 1 ≤ fuel →
      aget e.linkedLists cid = some chain →
      aget e.components cid = some (chainHead chain) →
      chain ≠ [] →
      (∀ r ∈ chain, (w r).linked = true) →
      chain.Nodup →
      (Entity.removeLoop w fuel e cid).1 =
          { e with components := adel e.components cid,
                   linkedLists := adel e.linkedLists cid } ∧
        ((Entity.removeLoop w fuel e cid).2).map Prod.snd
          = chain.map (fun r => Ev.removed (.comp r)) := by
  intro chain
  induction chain with
  | nil => intro e fuel _ _ _ hne; exact absurd rfl hne
  | cons h t ih =>
    intro e fuel hfuel hch hslot _ hlk hnd
    obtain ⟨f, rfl⟩ : ∃ f, fuel = f + 1 := ⟨fuel - 1, by omega⟩
    have hf : t.length + 1 ≤ f := by simpa using hfuel
    obtain ⟨f', rfl⟩ : ∃ f', f = f' + 1 := ⟨f - 1, by omega⟩
    have hhead : chainHead (h :: t) = h := rfl
    rw [hhead] at hslot
    have hlinked : (w h).linked = true := hlk h (List.mem_cons_self h t)
    have hcontains : (h :: t).contains h = true := by simp
    have herase : (h :: t).erase h = t := List.erase_cons_head h t
    cases t with
    | nil =>
      simp [Entity.removeLoop_succ, Entity.withdrawComponentT_succ, hch, hslot, hlinked,
        LinkedComponentList.remove, herase, aget_adel_self]
    | cons h2 t' =>
      have step1 :
          Entity.withdrawComponentT w (f' + 1) e cid h =
            ({ e with components := aset e.components cid h2,
                      linkedLists := aset e.linkedLists cid (h2 :: t') },
             [({ e with components := aset e.components cid h2,
                        linkedLists := aset e.linkedLists cid (h2 :: t') },
               .removed (.comp h))], some h) := by
        rw [Entity.withdrawComponentT_succ]
        simp [hch, hslot, hlinked, LinkedComponentList.remove, herase]
      have e1eq :
          ({ e with components := aset e.components cid h2,
                    linkedLists := aset e.linkedLists cid (h2 :: t') } : Entity) =
          { e with components := aset e.components cid h2,
                   linkedLists := aset e.linkedLists cid (h2 :: t') } := rfl
      have ihres := ih { e with components := aset e.components cid h2,
                                linkedLists := aset e.linkedLists cid (h2 :: t') }
        (f' + 1) hf (by simp [aget_aset_self]) (by simp [aget_aset_self, chainHead])
        (by simp) (fun r hr => hlk r (List.mem_cons_of_mem h hr)) (List.Nodup.of_cons hnd)
      have hloop :
          Entity.removeLoop w (f' + 1 + 1) e cid =
            ((Entity.removeLoop w (f' + 1)
                { e with components := aset e.components cid h2,
                         linkedLists := aset e.linkedLists cid (h2 :: t') } cid).1,
             [({ e with components := aset e.components cid h2,
                        linkedLists := aset e.linkedLists cid (h2 :: t') },
               Ev.removed (.comp h))] ++
               (Entity.removeLoop w (f' + 1)
                 { e with components := aset e.components cid h2,
                          linkedLists := aset e.linkedLists cid (h2 :: t') } cid).2) := by
        rw [Entity.removeLoop_succ]
        simp [hch, hslot, step1]
      rw [hloop]
      constructor
      · rw [ihres.1]
        simp [adel_aset]
      · simp [ihres.2]

/-- C4 amended: `Entity.add` of a linked instance always succeeds and fires
exactly one "added" for the passed instance, but when the entity already has
instances of that type it first removes every existing instance (one
"removed" per instance, oldest first) and only the passed instance remains;
it is direct `append` that leaves the existing instances (and their order)
in place while firing its single "added". -/
theorem add_linked_replaces_append_keeps (w : World) (e : Entity) (cid ref : Nat)
    (chain : List Nat)
    (href : (w ref).linked = true)
    (hch : aget e.linkedLists cid = some chain)
    (hslot : aget e.components cid = some (chainHead chain))
    (hne : chain ≠ [])
    (hlk : ∀ r ∈ chain, (w r).linked = true)
    (hnd : chain.Nodup) :
    (∃ evs : List EvT,
       Entity.addComponentT w e cid ref =
         .ok ({ e with components := aset (adel e.components cid) cid ref,
                       linkedLists := aset (adel e.linkedLists cid) cid [ref] }, evs) ∧
       evs.map Prod.snd
         = chain.map (fun r => Ev.removed (.comp r)) ++ [Ev.added (.comp ref)]) ∧
    (ref ∉ chain →
       Entity.appendComponentT e cid ref =
         .ok ({ e with linkedLists := aset e.linkedLists cid (chain ++ [ref]) },
              [({ e with linkedLists := aset e.linkedLists cid (chain ++ [ref]) },
                .added (.comp ref))])) := by
  have hheadmem : chainHead chain ∈ chain := by
    cases chain with
    | nil => exact absurd rfl hne
    | cons a t => exact List.mem_cons_self a t
  have hheadlk : (w (chainHead chain)).linked = true := hlk _ hheadmem
  have hfuel : e.entFuel cid = (chain.length + 1) + 1 := by
    simp [Entity.entFuel, hch]
  have hdrain := removeLoop_drains w cid chain e (chain.length + 1) (le_refl _)
    hch hslot hne hlk hnd
  constructor
  · refine ⟨(Entity.removeLoop w (chain.length + 1) e cid).2 ++
      [({ e with components := aset (adel e.components cid) cid ref,
                 linkedLists := aset (adel e.linkedLists cid) cid [ref] },
        .added (.comp ref))], ?_, ?_⟩
    · rw [Entity.addComponentT]
      simp only [hslot, href, Bool.not_true, Bool.false_and, if_false, hfuel]
      rw [Entity.removeComponentT_succ]
      simp only [hslot, hheadlk, if_true]
      rw [hdrain.1]
      simp [Entity.finishAdd, Entity.appendComponentT, aget_adel_self,
        LinkedComponentList.add, chainHead]
    · simp [hdrain.2]
  · intro hnotin
    have hKeep : (aget e.components cid).isSome = true := by simp [hslot]
    simp [Entity.appendComponentT, hch, LinkedComponentList.add, hnotin, hKeep]

/-- C4 amended witness: on a chain [10] of class 7, `add`ing linked instance
11 yields removed(10) then added(11) with only 11 remaining, while direct
`append` keeps [10, 11]. -/
theorem add_linked_replaces_append_keeps_witness :
    (∃ evs : List EvT,
       Entity.addComponentT wLk ⟨1, [(7, 10)], [(7, [10])], []⟩ 7 11 =
         .ok ({ eid := 1, components := [(7, 11)], linkedLists := [(7, [11])], tags := [] },
              evs) ∧
       evs.map Prod.snd = [Ev.removed (.comp 10), Ev.added (.comp 11)]) ∧
    Entity.appendComponentT ⟨1, [(7, 10)], [(7, [10])], []⟩ 7 11 =
      .ok ({ eid := 1, components := [(7, 10)], linkedLists := [(7, [10, 11])], tags := [] },
           [({ eid := 1, components := [(7, 10)], linkedLists := [(7, [10, 11])], tags := [] },
             .added (.comp 11))]) := by
  have h := add_linked_replaces_append_keeps wLk ⟨1, [(7, 10)], [(7, [10])], []⟩ 7 11 [10]
    rfl rfl rfl (by decide) (by intro r hr; rfl) (by decide)
  exact ⟨h.1, h.2 (by decide)⟩

/-! ### C3: `Query.entityComponentRemoved` transitions -/

theorem updateHelper_comp_empty (w : World) (e : Entity) (ref : Nat)
    (hl : (w ref).linked = false) (hslot : aget e.components ((w ref).cid) = none) :
    Query.updateHelper w e (.comp ref) =
      { eid := 0, components := aset e.components ((w ref).cid) ref,
        linkedLists := e.linkedLists, tags := e.tags } := by
  simp [Query.updateHelper, Entity.addT, Entity.addComponentT, hslot, hl, Entity.finishAdd]

/-- C3: `entityComponentRemoved` re-tests the predicate on the helper entity
(the state including the just-removed item) against the real already-updated
entity, and transitions MATCHING→NOT_MATCHING or NOT_MATCHING→MATCHING as the
predicate dictates; in particular, for an exclusion predicate ("does not have
class B"), removing B from an entity outside the result set pushes it into
the result set and fires the "entity added" signal. -/
theorem entityComponentRemoved_symmetric (w : World) (q : List Nat) (e : Entity) :
    (∀ (p : Entity → Bool) (v : Val),
       (q.contains e.eid = true → p (Query.updateHelper w e v) = true → p e = false →
          Query.entityComponentRemoved p w q e v = (q.erase e.eid, [.qremoved e.eid])) ∧
       (q.contains e.eid = false → p e = true → p (Query.updateHelper w e v) = false →
          Query.entityComponentRemoved p w q e v = (q ++ [e.eid], [.qadded e.eid]))) ∧
    (∀ bcid ref : Nat, (w ref).cid = bcid → (w ref).linked = false →
       aget e.components bcid = none → q.contains e.eid = false →
       Query.entityComponentRemoved (fun x => !(aget x.components bcid).isSome) w q e (.comp ref)
         = (q ++ [e.eid], [.qadded e.eid])) := by
  constructor
  · intro p v
    constructor
    · intro h1 h2 h3
      have hm : e.eid ∈ q := by simpa using h1
      simp [Query.entityComponentRemoved, h1, h2, h3, hm]
    · intro h1 h2 h3
      have hm : e.eid ∉ q := by simpa using h1
      simp [Query.entityComponentRemoved, h1, h2, h3, hm]
  · intro bcid ref hcid hl hslot hq
    have hslot' : aget e.components ((w ref).cid) = none := by rw [hcid]; exact hslot
    have hhelp := updateHelper_comp_empty w e ref hl hslot'
    have hpe : (!(aget e.components bcid).isSome) = true := by simp [hslot]
    have hph : (!(aget (Query.updateHelper w e (.comp ref)).components bcid).isSome) = false := by
      rw [hhelp]
      simp [hcid, aget_aset_self]
    have hm : e.eid ∉ q := by simpa using hq
    simp [Query.entityComponentRemoved, hq, hpe, hph, hm]

/-- C3 witness: with the exclusion predicate "lacks class 3", entity 5
(outside the empty result list) starts matching when instance 3 (class 3) is
removed: the handler pushes it and fires "entity added". -/
theorem entityComponentRemoved_symmetric_witness :
    Query.entityComponentRemoved
        (fun x => !(aget x.components 3).isSome) wNL [] ⟨5, [], [], []⟩ (.comp 3)
      = ([5], [.qadded 5]) :=
  (entityComponentRemoved_symmetric wNL [] ⟨5, [], [], []⟩).2 3 3 rfl rfl rfl rfl

/-! ### C1: the query membership invariant -/

theorem list_all_congr {α : Type} (l : List α) (f g : α → Bool)
    (h : ∀ x ∈ l, f x = g x) : l.all f = l.all g := by
  induction l with
  | nil => rfl
  | cons x t ih =>
    simp only [List.all_cons, h x (List.mem_cons_self x t),
      ih (fun y hy => h y (List.mem_cons_of_mem x hy))]

theorem list_contains_of_mem {α : Type} [BEq α] [LawfulBEq α] (l : List α) (x : α)
    (h : x ∈ l) : l.contains x = true := List.elem_iff.mpr h

theorem list_contains_of_not_mem {α : Type} [BEq α] [LawfulBEq α] (l : List α) (x : α)
    (h : x ∉ l) : l.contains x = false := by
  cases hc : l.contains x
  · rfl
  · exact absurd (List.elem_iff.mp hc) h

/-- `hasAll` only inspects slot occupancy and tag membership, so it agrees on
entities with identical lookups. -/
theorem hasAllB_congr (cids : List Nat) (qtags : List Tag) (a b : Entity)
    (hc : ∀ k, (aget a.components k).isSome = (aget b.components k).isSome)
    (ht : ∀ x, x ∈ a.tags ↔ x ∈ b.tags) :
    hasAllB cids qtags a = hasAllB cids qtags b := by
  unfold hasAllB
  rw [list_all_congr cids _ _ (fun k _ => hc k),
    list_all_congr qtags _ _ (fun x _ => ?_)]
  by_cases hx : x ∈ a.tags
  · rw [list_contains_of_mem _ _ hx, list_contains_of_mem _ _ ((ht x).mp hx)]
  · rw [list_contains_of_not_mem _ _ hx,
      list_contains_of_not_mem _ _ (fun hh => hx ((ht x).mpr hh))]

@[simp] theorem poolGet_nil (i : Nat) : poolGet [] i = none := rfl

theorem poolGet_cons (x : Entity) (t : List Entity) (i : Nat) :
    poolGet (x :: t) i = if x.eid = i then some x else poolGet t i := by
  by_cases h : x.eid = i <;> simp [poolGet, List.find?_cons, h]

theorem poolGet_append (pool : List Entity) (e : Entity) (i : Nat) :
    poolGet (pool ++ [e]) i =
      match poolGet pool i with
      | some x => some x
      | none => if e.eid = i then some e else none := by
  induction pool with
  | nil => by_cases he : e.eid = i <;> simp [poolGet_cons, he]
  | cons x t ih =>
    by_cases hx : x.eid = i <;> simp [List.cons_append, poolGet_cons, hx, ih]

theorem poolGet_filter_ne (pool : List Entity) (i j : Nat) :
    poolGet (pool.filter (fun x => x.eid ≠ j)) i
      = if i = j then none else poolGet pool i := by
  induction pool with
  | nil => simp
  | cons x t ih =>
    by_cases hx : x.eid = j <;> by_cases hij : i = j
    · subst hij
      simpa [List.filter_cons, hx] using ih
    · have hxi : x.eid ≠ i := by omega
      have hji : j ≠ i := fun h => hij h.symm
      simpa [List.filter_cons, hx, hij, hxi, hji, poolGet_cons] using ih
    · subst hij
      have hxi : x.eid ≠ i := hx
      simpa [List.filter_cons, hx, hxi, poolGet_cons] using ih
    · by_cases hxi : x.eid = i
      · simp [List.filter_cons, hx, hij, hxi, poolGet_cons]
      · simpa [List.filter_cons, hx, hij, hxi, poolGet_cons] using ih

theorem updatePool_cons (x : Entity) (t : List Entity) (e' : Entity) :
    updatePool (x :: t) e' = (if x.eid = e'.eid then e' else x) :: updatePool t e' := by
  by_cases h : x.eid = e'.eid <;> simp [updatePool, h]

theorem poolGet_updatePool (pool : List Entity) (e' : Entity) (i : Nat) :
    poolGet (updatePool pool e') i =
      if i = e'.eid then (poolGet pool i).map (fun _ => e') else poolGet pool i := by
  induction pool with
  | nil => simp [updatePool]
  | cons x t ih =>
    rw [updatePool_cons]
    by_cases hx : x.eid = e'.eid <;> by_cases hi : i = e'.eid
    · subst hi
      simp [poolGet_cons, hx]
    · have hxi : x.eid ≠ i := by omega
      have he : e'.eid ≠ i := by omega
      simp [poolGet_cons, hx, hi, hxi, he, ih]
    · subst hi
      simp [poolGet_cons, hx, ih]
    · by_cases hxi : x.eid = i <;> simp [poolGet_cons, hx, hi, hxi, ih]

theorem updatePool_map_eid (pool : List Entity) (e' : Entity) :
    (updatePool pool e').map Entity.eid = pool.map Entity.eid := by
  induction pool with
  | nil => rfl
  | cons x t ih =>
    rw [updatePool_cons]
    by_cases hx : x.eid = e'.eid <;> simp [hx, ih]

theorem mem_updatePool (pool : List Entity) (e' x : Entity)
    (h : x ∈ updatePool pool e') : x = e' ∨ x ∈ pool := by
  induction pool with
  | nil => simp [updatePool] at h
  | cons y t ih =>
    rw [updatePool_cons] at h
    rcases List.mem_cons.mp h with h1 | h1
    · by_cases hy : y.eid = e'.eid
      · left; simpa [hy] using h1
      · right; rw [if_neg hy] at h1; exact h1 ▸ List.mem_cons_self y t
    · rcases ih h1 with h2 | h2
      · exact Or.inl h2
      · exact Or.inr (List.mem_cons_of_mem y h2)

theorem poolGet_of_mem (pool : List Entity) (hnd : (pool.map Entity.eid).Nodup)
    (e : Entity) (he : e ∈ pool) : poolGet pool e.eid = some e := by
  induction pool with
  | nil => exact absurd he (List.not_mem_nil e)
  | cons x t ih =>
    rcases List.mem_cons.mp he with h1 | h1
    · subst h1
      simp [poolGet_cons]
    · have hnd2 : (x.eid :: t.map Entity.eid).Nodup := by
        rw [List.map_cons] at hnd; exact hnd
      have hnd' := List.nodup_cons.mp hnd2
      have hx : x.eid ≠ e.eid := by
        intro hc
        exact hnd'.1 (hc ▸ List.mem_map.mpr ⟨e, h1, rfl⟩)
      rw [poolGet_cons, if_neg hx]
      exact ih hnd'.2 h1

theorem mem_of_poolGet (pool : List Entity) (i : Nat) (e : Entity)
    (h : poolGet pool i = some e) : e ∈ pool ∧ e.eid = i := by
  refine ⟨List.mem_of_find?_eq_some h, ?_⟩
  have := List.find?_some h
  simpa using this

theorem poolGet_eq_none_iff (pool : List Entity) (i : Nat) :
    poolGet pool i = none ↔ ∀ x ∈ pool, x.eid ≠ i := by
  unfold poolGet
  rw [List.find?_eq_none]
  constructor
  · intro h x hx
    have := h x hx
    simpa using this
  · intro h x hx
    simpa using h x hx

theorem removeComponentT_noslot (w : World) (fuel : Nat) (e : Entity) (cid : Nat)
    (hf : 1 ≤ fuel) (hs : aget e.components cid = none) :
    Entity.removeComponentT w fuel e cid = (e, [], none) := by
  obtain ⟨f, rfl⟩ : ∃ f, fuel = f + 1 := ⟨fuel - 1, by omega⟩
  rw [Entity.removeComponentT_succ]
  simp [hs]

theorem addComponentT_nonlinked_empty (w : World) (e : Entity) (cid ref : Nat)
    (hr : (w ref).linked = false) (hs : aget e.components cid = none) :
    Entity.addComponentT w e cid ref =
      .ok ({ e with components := aset e.components cid ref },
           [({ e with components := aset e.components cid ref }, .added (.comp ref))]) := by
  simp [Entity.addComponentT, hs, hr, Entity.finishAdd]

theorem addComponentT_nonlinked_same (w : World) (e : Entity) (cid ref : Nat)
    (hr : (w ref).linked = false) (hs : aget e.components cid = some ref) :
    Entity.addComponentT w e cid ref = .ok (e, []) := by
  simp [Entity.addComponentT, hs, hr]

theorem addComponentT_nonlinked_replace (w : World) (e : Entity) (cid ref v : Nat)
    (hr : (w ref).linked = false) (hv : (w v).linked = false)
    (hs : aget e.components cid = some v) (hne : v ≠ ref) :
    Entity.addComponentT w e cid ref =
      .ok ({ e with components := aset (adel e.components cid) cid ref },
           [({ e with components := adel e.components cid }, .removed (.comp v)),
            ({ e with components := aset (adel e.components cid) cid ref },
             .added (.comp ref))]) := by
  have hrm := removeComponentT_simple w (e.entFuel cid) e cid v
    (by simp [Entity.entFuel]) hs hv
  simp [Entity.addComponentT, hs, hr, hne, hrm, Entity.finishAdd]

/-- The helper entity built for a dispatched non-linked component: a copy of
the entity whose only lookup difference is that the component's own class id
maps to the dispatched instance. -/
theorem updateHelper_comp_value (w : World) (e : Entity) (r : Nat)
    (hr : (w r).linked = false)
    (hold : ∀ v, aget e.components ((w r).cid) = some v → (w v).linked = false) :
    ∃ comps, Query.updateHelper w e (.comp r) =
        { eid := 0, components := comps, linkedLists := e.linkedLists, tags := e.tags } ∧
      ∀ k, aget comps k = if k = (w r).cid then some r else aget e.components k := by
  cases hs : aget e.components ((w r).cid) with
  | none =>
    refine ⟨aset e.components ((w r).cid) r, ?_, ?_⟩
    · have := addComponentT_nonlinked_empty w
        { eid := 0, components := e.components, linkedLists := e.linkedLists, tags := e.tags }
        ((w r).cid) r hr hs
      simp [Query.updateHelper, Entity.addT, this]
    · intro k
      by_cases hk : k = (w r).cid
      · subst hk; simp [aget_aset_self, hs]
      · simp [hk, aget_aset_ne _ _ _ _ hk]
  | some v =>
    have hv := hold v hs
    by_cases hvr : v = r
    · refine ⟨e.components, ?_, ?_⟩
      · have hh := addComponentT_nonlinked_same w
          { eid := 0, components := e.components, linkedLists := e.linkedLists, tags := e.tags }
          ((w r).cid) r hr (hvr ▸ hs)
        simp [Query.updateHelper, Entity.addT, hh]
      · intro k
        by_cases hk : k = (w r).cid
        · subst hk; rw [hs, hvr]; simp
        · simp [hk]
    · refine ⟨aset (adel e.components ((w r).cid)) ((w r).cid) r, ?_, ?_⟩
      · have hh := addComponentT_nonlinked_replace w
          { eid := 0, components := e.components, linkedLists := e.linkedLists, tags := e.tags }
          ((w r).cid) r v hr hv hs hvr
        simp [Query.updateHelper, Entity.addT, hh]
      · intro k
        by_cases hk : k = (w r).cid
        · subst hk; simp [aget_aset_self]
        · simp [hk, aget_aset_ne _ _ _ _ hk, aget_adel_ne _ _ _ hk]

/-- The helper entity built for a dispatched tag: a copy of the entity whose
tag set additionally holds the dispatched tag. -/
theorem updateHelper_tag_value (w : World) (e : Entity) (t : Tag) :
    ∃ tgs, Query.updateHelper w e (.tag t) =
        { eid := 0, components := e.components, linkedLists := e.linkedLists, tags := tgs } ∧
      ∀ x, x ∈ tgs ↔ (x = t ∨ x ∈ e.tags) := by
  by_cases ht : t ∈ e.tags
  · refine ⟨e.tags, ?_, ?_⟩
    · simp [Query.updateHelper, Entity.addT, Entity.addTagT, Entity.hasTag, ht]
    · intro x
      constructor
      · intro hx; exact Or.inr hx
      · rintro (rfl | hx)
        · exact ht
        · exact hx
  · refine ⟨e.tags ++ [t], ?_, ?_⟩
    · simp [Query.updateHelper, Entity.addT, Entity.addTagT, Entity.hasTag, ht]
    · intro x
      simp [List.mem_append, or_comm]

theorem mem_of_contains_true {α : Type} [BEq α] [LawfulBEq α] {l : List α} {x : α}
    (h : l.contains x = true) : x ∈ l := List.elem_iff.mp h

theorem not_mem_of_contains_false {α : Type} [BEq α] [LawfulBEq α] {l : List α} {x : α}
    (h : l.contains x = false) : x ∉ l := by
  intro hm
  rw [list_contains_of_mem _ _ hm] at h
  exact Bool.noConfusion h

/-- Effect of `Query.entityComponentAdded` on membership when the helper and
the entity agree on the predicate. -/
theorem ecAdded_step (p : Entity → Bool) (w : World) (q : List Nat) (e1 : Entity) (v : Val)
    (hnd : q.Nodup) (hm : p (Query.updateHelper w e1 v) = p e1) :
    ((Query.entityComponentAdded p w q e1 v).1).Nodup ∧
    ((e1.eid ∈ (Query.entityComponentAdded p w q e1 v).1) ↔ p e1 = true) ∧
    (∀ j, j ≠ e1.eid → ((j ∈ (Query.entityComponentAdded p w q e1 v).1) ↔ j ∈ q)) := by
  simp only [Query.entityComponentAdded]
  rw [hm]
  split_ifs with h1 h2
  · simp only [Bool.and_eq_true, Bool.not_eq_true'] at h1
    have hc : e1.eid ∉ q := not_mem_of_contains_false h1.1
    refine ⟨?_, ?_, ?_⟩
    · simp [List.nodup_append, hnd, hc]
    · simp [h1.2]
    · intro j hj
      simp [hj]
  · simp only [Bool.and_eq_true, Bool.not_eq_true'] at h2
    refine ⟨hnd.erase _, ?_, ?_⟩
    · simp [hnd.mem_erase_iff, h2.2]
    · intro j hj
      exact List.mem_erase_of_ne hj
  · refine ⟨hnd, ?_, fun j hj => Iff.rfl⟩
    simp only [Bool.and_eq_true, Bool.not_eq_true', not_and] at h1 h2
    cases hpe : p e1
    · have hcf : q.contains e1.eid = false := by
        cases hcs : q.contains e1.eid
        · rfl
        · exact absurd hpe (h2 hcs)
      simp [not_mem_of_contains_false hcf]
    · have hct : q.contains e1.eid = true := by
        cases hcs : q.contains e1.eid
        · exact absurd hpe (h1 hcs)
        · rfl
      simp [mem_of_contains_true hct]

/-- Effect of `Query.entityComponentRemoved` on membership when the helper
evaluates like the pre-change entity and membership reflects the pre-change
predicate value. -/
theorem ecRemoved_step (p : Entity → Bool) (w : World) (q : List Nat) (e1 : Entity) (v : Val)
    (pre : Bool) (hnd : q.Nodup)
    (hm : p (Query.updateHelper w e1 v) = pre)
    (hq : (e1.eid ∈ q) ↔ (pre = true)) :
    ((Query.entityComponentRemoved p w q e1 v).1).Nodup ∧
    ((e1.eid ∈ (Query.entityComponentRemoved p w q e1 v).1) ↔ p e1 = true) ∧
    (∀ j, j ≠ e1.eid → ((j ∈ (Query.entityComponentRemoved p w q e1 v).1) ↔ j ∈ q)) := by
  simp only [Query.entityComponentRemoved]
  rw [hm]
  split_ifs with h1 h2
  · simp only [Bool.and_eq_true, Bool.not_eq_true'] at h1
    refine ⟨hnd.erase _, ?_, ?_⟩
    · simp [hnd.mem_erase_iff, h1.2]
    · intro j hj
      exact List.mem_erase_of_ne hj
  · simp only [Bool.and_eq_true, Bool.not_eq_true'] at h2
    have hc : e1.eid ∉ q := not_mem_of_contains_false h2.1.1
    refine ⟨?_, ?_, ?_⟩
    · simp [List.nodup_append, hnd, hc]
    · simp [h2.1.2]
    · intro j hj
      simp [hj]
  · refine ⟨hnd, ?_, fun j hj => Iff.rfl⟩
    simp only [Bool.and_eq_true, Bool.not_eq_true', not_and] at h1 h2
    cases hpre : pre
    · have hc : e1.eid ∉ q := by
        intro hmem
        exact Bool.noConfusion (hpre ▸ hq.mp hmem)
      have hcf : q.contains e1.eid = false := list_contains_of_not_mem _ _ hc
      have hpf : p e1 = false := by
        cases hpe : p e1
        · rfl
        · exact absurd hpre (h2 ⟨hcf, hpe⟩)
      simp [hc, hpf]
    · have hc : e1.eid ∈ q := hq.mpr hpre
      have hct : q.contains e1.eid = true := list_contains_of_mem _ _ hc
      have hpt : p e1 = true := by
        cases hpe : p e1
        · exact absurd hpe (h1 ⟨hct, hpre⟩)
        · rfl
      simp [hc, hpt]

/-- The engine/query invariant: pool entity ids are unique, the query's list
is duplicate-free, pool entities store instances under their own class ids,
and the query's list holds exactly the ids of pool entities satisfying
`hasAll`. -/
def StInv (w : World) (cids : List Nat) (qtags : List Tag) (st : EngSt) : Prop :=
  (st.pool.map Entity.eid).Nodup ∧
  st.q.Nodup ∧
  (∀ e ∈ st.pool, CompConsistent w e) ∧
  (∀ i : Nat, (i ∈ st.q) ↔ ∃ e, poolGet st.pool i = some e ∧ hasAllB cids qtags e = true)

theorem invariant_replace (w : World) (cids : List Nat) (qtags : List Tag)
    (st : EngSt) (i : Nat) (e0 e1 : Entity) (q1 : List Nat)
    (hinv : StInv w cids qtags st)
    (hget : poolGet st.pool i = some e0)
    (heid : e1.eid = i)
    (hcons1 : CompConsistent w e1)
    (hq1 : q1.Nodup)
    (hq2 : (i ∈ q1) ↔ (hasAllB cids qtags e1 = true))
    (hq3 : ∀ j, j ≠ i → ((j ∈ q1) ↔ j ∈ st.q)) :
    StInv w cids qtags { pool := updatePool st.pool e1, q := q1 } := by
  obtain ⟨hnd, hqnd, hcons, hmem⟩ := hinv
  refine ⟨?_, hq1, ?_, ?_⟩
  · simpa [updatePool_map_eid] using hnd
  · intro x hx
    rcases mem_updatePool _ _ _ hx with h | h
    · exact h ▸ hcons1
    · exact hcons x h
  · intro j
    by_cases hj : j = i
    · subst hj
      rw [hq2]
      constructor
      · intro hp
        refine ⟨e1, ?_, hp⟩
        simp [poolGet_updatePool, heid, hget]
      · rintro ⟨e, hpg, hp⟩
        simp [poolGet_updatePool, heid, hget] at hpg
        exact hpg ▸ hp
    · rw [hq3 j hj, hmem j]
      have hrw : poolGet (updatePool st.pool e1) j = poolGet st.pool j := by
        rw [poolGet_updatePool, heid, if_neg hj]
      rw [hrw]

theorem invariant_refresh (w : World) (cids : List Nat) (qtags : List Tag)
    (st : EngSt) (i : Nat) (e' : Entity)
    (hinv : StInv w cids qtags st)
    (hget : poolGet st.pool i = some e') :
    StInv w cids qtags { pool := updatePool st.pool e', q := st.q } := by
  have heid : e'.eid = i := (mem_of_poolGet _ _ _ hget).2
  have hm := (mem_of_poolGet _ _ _ hget).1
  refine invariant_replace w cids qtags st i e' e' st.q hinv hget heid
    (hinv.2.2.1 e' hm) hinv.2.1 ?_ (fun j hj => Iff.rfl)
  rw [hinv.2.2.2 i]
  constructor
  · rintro ⟨e, hpg, hp⟩
    rw [hget, Option.some.injEq] at hpg
    rw [← hpg] at hp
    exact hp
  · intro hp
    exact ⟨e', hget, hp⟩

theorem compConsistent_del (w : World) (e : Entity) (cid : Nat)
    (h : CompConsistent w e) :
    CompConsistent w { e with components := adel e.components cid } := by
  intro k r hk
  by_cases hkc : k = cid
  · subst hkc
    rw [aget_adel_self] at hk
    exact Option.noConfusion hk
  · rw [aget_adel_ne _ _ _ hkc] at hk
    exact h k r hk

theorem compConsistent_set (w : World) (comps : List (Nat × Nat)) (ref : Nat)
    (h : ∀ k r, aget comps k = some r → (w r).cid = k) :
    ∀ k r, aget (aset comps ((w ref).cid) ref) k = some r → (w r).cid = k := by
  intro k r hk
  by_cases hkc : k = (w ref).cid
  · subst hkc
    rw [aget_aset_self, Option.some.injEq] at hk
    rw [← hk]
  · rw [aget_aset_ne _ _ _ _ hkc] at hk
    exact h k r hk

/-- One "component/tag added" dispatch: the invariant survives, and the pool
now holds the post-event entity. -/
theorem applyEv_added_inv (w : World) (cids : List Nat) (qtags : List Tag)
    (st : EngSt) (i : Nat) (e0 e1 : Entity) (v : Val)
    (hinv : StInv w cids qtags st)
    (hget : poolGet st.pool i = some e0)
    (heid : e1.eid = i)
    (hcons1 : CompConsistent w e1)
    (hm : hasAllB cids qtags (Query.updateHelper w e1 v) = hasAllB cids qtags e1) :
    StInv w cids qtags (applyEv (hasAllB cids qtags) w st (e1, .added v)) ∧
    poolGet (applyEv (hasAllB cids qtags) w st (e1, .added v)).pool i = some e1 := by
  have hstep := ecAdded_step (hasAllB cids qtags) w st.q e1 v hinv.2.1 hm
  constructor
  · refine invariant_replace w cids qtags st i e0 e1 _ hinv hget heid hcons1
      hstep.1 ?_ ?_
    · rw [← heid]; exact hstep.2.1
    · intro j hj
      exact hstep.2.2 j (by rw [heid]; exact hj)
  · simp [applyEv, poolGet_updatePool, heid, hget]

/-- One "component/tag removed" dispatch: the invariant survives when the
helper evaluates like the pre-change entity. -/
theorem applyEv_removed_inv (w : World) (cids : List Nat) (qtags : List Tag)
    (st : EngSt) (i : Nat) (e0 e1 : Entity) (v : Val)
    (hinv : StInv w cids qtags st)
    (hget : poolGet st.pool i = some e0)
    (heid : e1.eid = i)
    (hcons1 : CompConsistent w e1)
    (hm : hasAllB cids qtags (Query.updateHelper w e1 v) = hasAllB cids qtags e0) :
    StInv w cids qtags (applyEv (hasAllB cids qtags) w st (e1, .removed v)) ∧
    poolGet (applyEv (hasAllB cids qtags) w st (e1, .removed v)).pool i = some e1 := by
  have hq : (e1.eid ∈ st.q) ↔ (hasAllB cids qtags e0 = true) := by
    rw [heid, hinv.2.2.2 i]
    constructor
    · rintro ⟨e, hpg, hp⟩
      rw [hget, Option.some.injEq] at hpg
      rw [← hpg] at hp
      exact hp
    · intro hp
      exact ⟨e0, hget, hp⟩
  have hstep := ecRemoved_step (hasAllB cids qtags) w st.q e1 v
    (hasAllB cids qtags e0) hinv.2.1 hm hq
  constructor
  · refine invariant_replace w cids qtags st i e0 e1 _ hinv hget heid hcons1
      hstep.1 ?_ ?_
    · rw [← heid]; exact hstep.2.1
    · intro j hj
      exact hstep.2.2 j (by rw [heid]; exact hj)
  · simp [applyEv, poolGet_updatePool, heid, hget]

theorem exSome_iff (pool : List Entity) (i : Nat) (y : Entity)
    (P : Entity → Prop) (h : poolGet pool i = some y) :
    (∃ e, poolGet pool i = some e ∧ P e) ↔ P y := by
  constructor
  · rintro ⟨e, he, hp⟩
    rw [h, Option.some.injEq] at he
    subst he
    exact hp
  · intro hp
    exact ⟨y, h, hp⟩

theorem stepInv_addEntity (w : World) (cids : List Nat) (qtags : List Tag)
    (st : EngSt) (e : Entity) (hmo : CompConsistent w e)
    (hinv : StInv w cids qtags st) :
    StInv w cids qtags (step (hasAllB cids qtags) w st (.addEntity e)) := by
  obtain ⟨hnd, hqnd, hcons, hmem⟩ := hinv
  simp only [step]
  by_cases hp : (poolGet st.pool e.eid).isSome
  · rw [if_pos hp]
    exact ⟨hnd, hqnd, hcons, hmem⟩
  · rw [if_neg hp]
    have hpn : poolGet st.pool e.eid = none := by
      cases hpg : poolGet st.pool e.eid
      · rfl
      · rw [hpg] at hp; simp at hp
    have hnotq : e.eid ∉ st.q := by
      intro hmm
      obtain ⟨x, hx1, _⟩ := (hmem e.eid).mp hmm
      rw [hpn] at hx1
      exact Option.noConfusion hx1
    have hnotpool : e.eid ∉ st.pool.map Entity.eid := by
      intro hmm
      obtain ⟨x, hx1, hx2⟩ := List.mem_map.mp hmm
      exact ((poolGet_eq_none_iff _ _).mp hpn) x hx1 hx2
    have hndids : ((st.pool ++ [e]).map Entity.eid).Nodup := by
      rw [List.map_append]
      simp [List.nodup_append, hnd, hnotpool]
    have hconsall : ∀ x ∈ st.pool ++ [e], CompConsistent w x := by
      intro x hx
      rcases List.mem_append.mp hx with h | h
      · exact hcons x h
      · simp only [List.mem_singleton] at h
        exact h ▸ hmo
    have hmemiff : ∀ (q' : List Nat),
        ((e.eid ∈ q') ↔ hasAllB cids qtags e = true) →
        (∀ j, j ≠ e.eid → ((j ∈ q') ↔ j ∈ st.q)) →
        ∀ i : Nat, (i ∈ q') ↔
          ∃ x, poolGet (st.pool ++ [e]) i = some x ∧ hasAllB cids qtags x = true := by
      intro q' hq1 hq2 i
      by_cases hie : i = e.eid
      · subst hie
        have hrw : poolGet (st.pool ++ [e]) e.eid = some e := by
          rw [poolGet_append, hpn]
          simp
        rw [hq1, exSome_iff _ _ _ _ hrw]
      · cases hpg : poolGet st.pool i with
        | some y =>
          have hrw : poolGet (st.pool ++ [e]) i = some y := by
            rw [poolGet_append, hpg]
          rw [hq2 i hie, hmem i, exSome_iff _ _ _ _ hpg, exSome_iff _ _ _ _ hrw]
        | none =>
          have hei : e.eid ≠ i := fun h => hie h.symm
          have hrw : poolGet (st.pool ++ [e]) i = none := by
            rw [poolGet_append, hpg]
            simp [hei]
          rw [hq2 i hie, hmem i, hpg, hrw]
    simp only [Query.entityAdded]
    by_cases hpe : hasAllB cids qtags e = true
    · rw [if_pos (by simp [hnotq, hpe])]
      refine ⟨hndids, ?_, hconsall, ?_⟩
      · rw [List.nodup_append]
        exact ⟨hqnd, List.nodup_singleton _, fun a ha hb => by
          simp only [List.mem_singleton] at hb
          exact hnotq (hb ▸ ha)⟩
      · exact hmemiff (st.q ++ [e.eid]) (by simp [hpe]) (fun j hj => by simp [hj])
    · have hpe' : hasAllB cids qtags e = false := by
        cases hh : hasAllB cids qtags e
        · rfl
        · exact absurd hh hpe
      rw [if_neg (by simp [hpe'])]
      refine ⟨hndids, hqnd, hconsall, ?_⟩
      exact hmemiff st.q (by simp [hnotq, hpe']) (fun j hj => Iff.rfl)

theorem stepInv_removeEntity (w : World) (cids : List Nat) (qtags : List Tag)
    (st : EngSt) (i : Nat) (hinv : StInv w cids qtags st) :
    StInv w cids qtags (step (hasAllB cids qtags) w st (.removeEntity i)) := by
  obtain ⟨hnd, hqnd, hcons, hmem⟩ := hinv
  simp only [step]
  cases hpg : poolGet st.pool i with
  | none => exact ⟨hnd, hqnd, hcons, hmem⟩
  | some e0 =>
    have heid0 := (mem_of_poolGet _ _ _ hpg).2
    have hndids : ((st.pool.filter (fun x => x.eid ≠ i)).map Entity.eid).Nodup :=
      hnd.sublist ((List.filter_sublist _).map Entity.eid)
    have hconsf : ∀ x ∈ st.pool.filter (fun x => x.eid ≠ i), CompConsistent w x :=
      fun x hx => hcons x (List.mem_of_mem_filter hx)
    have hmemf : ∀ j : Nat, j ≠ i → ∀ (hq : Prop), (hq ↔ j ∈ st.q) →
        (hq ↔ ∃ x, poolGet (st.pool.filter (fun x => x.eid ≠ i)) j = some x ∧
          hasAllB cids qtags x = true) := by
      intro j hj hq hqe
      rw [hqe, hmem j]
      have hrw : poolGet (st.pool.filter (fun x => x.eid ≠ i)) j = poolGet st.pool j := by
        rw [poolGet_filter_ne, if_neg hj]
      rw [hrw]
    simp only [Query.entityRemoved]
    have hnone : poolGet (st.pool.filter (fun x => x.eid ≠ i)) i = none := by
      rw [poolGet_filter_ne, if_pos rfl]
    by_cases hcq : e0.eid ∈ st.q
    · rw [if_pos (list_contains_of_mem _ _ hcq)]
      refine ⟨hndids, hqnd.erase _, hconsf, ?_⟩
      intro j
      by_cases hj : j = i
      · subst hj
        constructor
        · intro hmm
          rw [← heid0] at hmm
          exact absurd rfl (hqnd.mem_erase_iff.mp hmm).1
        · rintro ⟨x, hx, _⟩
          rw [hnone] at hx
          exact Option.noConfusion hx
      · have hje : j ≠ e0.eid := by rw [heid0]; exact hj
        exact hmemf j hj _ (List.mem_erase_of_ne hje)
    · rw [if_neg (by simp [hcq])]
      refine ⟨hndids, hqnd, hconsf, ?_⟩
      intro j
      by_cases hj : j = i
      · subst hj
        constructor
        · intro hmm
          rw [← heid0] at hmm
          exact absurd hmm hcq
        · rintro ⟨x, hx, _⟩
          rw [hnone] at hx
          exact Option.noConfusion hx
      · exact hmemf j hj _ Iff.rfl

theorem stepInv_addComp (w : World) (cids : List Nat) (qtags : List Tag)
    (hw : ∀ r, (w r).linked = false)
    (st : EngSt) (i ref : Nat) (hinv : StInv w cids qtags st) :
    StInv w cids qtags (step (hasAllB cids qtags) w st (.addComp i ref)) := by
  simp only [step]
  cases hpg : poolGet st.pool i with
  | none => exact hinv
  | some e0 =>
    have heid0 := (mem_of_poolGet _ _ _ hpg).2
    have hmem0 := (mem_of_poolGet _ _ _ hpg).1
    have hcons0 := hinv.2.2.1 e0 hmem0
    cases hs : aget e0.components ((w ref).cid) with
    | none =>
      simp only [addComponentT_nonlinked_empty w e0 ((w ref).cid) ref (hw ref) hs,
        applyTrace, List.foldl]
      have hcons2 : CompConsistent w
          { e0 with components := aset e0.components ((w ref).cid) ref } :=
        fun k r hk => compConsistent_set w e0.components ref hcons0 k r hk
      have hm2 : hasAllB cids qtags
          (Query.updateHelper w
            { e0 with components := aset e0.components ((w ref).cid) ref } (.comp ref))
          = hasAllB cids qtags
            { e0 with components := aset e0.components ((w ref).cid) ref } := by
        obtain ⟨comps, hval, hlook⟩ := updateHelper_comp_value w
          { e0 with components := aset e0.components ((w ref).cid) ref } ref (hw ref)
          (fun v _ => hw v)
        rw [hval]
        refine hasAllB_congr cids qtags _ _ ?_ (fun x => Iff.rfl)
        intro k
        rw [hlook k]
        by_cases hk : k = (w ref).cid
        · subst hk
          simp [aget_aset_self]
        · simp [hk]
      have h1 := applyEv_added_inv w cids qtags st i e0
        { e0 with components := aset e0.components ((w ref).cid) ref } (.comp ref)
        hinv hpg heid0 hcons2 hm2
      exact invariant_refresh w cids qtags _ i _ h1.1 h1.2
    | some old =>
      have hcidold : (w old).cid = (w ref).cid := hcons0 _ old hs
      by_cases hor : old = ref
      · rw [hor] at hs
        simp only [addComponentT_nonlinked_same w e0 ((w ref).cid) ref (hw ref) hs,
          applyTrace, List.foldl]
        exact invariant_refresh w cids qtags st i e0 hinv hpg
      · simp only [addComponentT_nonlinked_replace w e0 ((w ref).cid) ref old
          (hw ref) (hw old) hs hor, applyTrace, List.foldl]
        have hcons1 : CompConsistent w
            { e0 with components := adel e0.components ((w ref).cid) } :=
          compConsistent_del w e0 _ hcons0
        have hm1 : hasAllB cids qtags
            (Query.updateHelper w
              { e0 with components := adel e0.components ((w ref).cid) } (.comp old))
            = hasAllB cids qtags e0 := by
          obtain ⟨comps, hval, hlook⟩ := updateHelper_comp_value w
            { e0 with components := adel e0.components ((w ref).cid) } old (hw old)
            (fun v _ => hw v)
          rw [hval]
          refine hasAllB_congr cids qtags _ _ ?_ (fun x => Iff.rfl)
          intro k
          rw [hlook k]
          by_cases hk : k = (w old).cid
          · subst hk
            simp [hcidold, hs]
          · have hk2 : k ≠ (w ref).cid := by rw [← hcidold]; exact hk
            simp [hk, aget_adel_ne _ _ _ hk2]
        have h1 := applyEv_removed_inv w cids qtags st i e0
          { e0 with components := adel e0.components ((w ref).cid) } (.comp old)
          hinv hpg heid0 hcons1 hm1
        have hcons2 : CompConsistent w
            { e0 with components := aset (adel e0.components ((w ref).cid)) ((w ref).cid) ref } :=
          fun k r hk => compConsistent_set w (adel e0.components ((w ref).cid)) ref
            (fun k' r' hk' => hcons1 k' r' hk') k r hk
        have hm2 : hasAllB cids qtags
            (Query.updateHelper w
              { e0 with components := aset (adel e0.components ((w ref).cid)) ((w ref).cid) ref }
              (.comp ref))
            = hasAllB cids qtags
              { e0 with components := aset (adel e0.components ((w ref).cid)) ((w ref).cid) ref } := by
          obtain ⟨comps, hval, hlook⟩ := updateHelper_comp_value w
            { e0 with components := aset (adel e0.components ((w ref).cid)) ((w ref).cid) ref }
            ref (hw ref) (fun v _ => hw v)
          rw [hval]
          refine hasAllB_congr cids qtags _ _ ?_ (fun x => Iff.rfl)
          intro k
          rw [hlook k]
          by_cases hk : k = (w ref).cid
          · subst hk
            simp [aget_aset_self]
          · simp [hk]
        have h2 := applyEv_added_inv w cids qtags _ i
          { e0 with components := adel e0.components ((w ref).cid) }
          { e0 with components := aset (adel e0.components ((w ref).cid)) ((w ref).cid) ref }
          (.comp ref) h1.1 h1.2 heid0 hcons2 hm2
        exact invariant_refresh w cids qtags _ i _ h2.1 h2.2

theorem stepInv_removeComp (w : World) (cids : List Nat) (qtags : List Tag)
    (hw : ∀ r, (w r).linked = false)
    (st : EngSt) (i cid : Nat) (hinv : StInv w cids qtags st) :
    StInv w cids qtags (step (hasAllB cids qtags) w st (.removeComp i cid)) := by
  simp only [step]
  cases hpg : poolGet st.pool i with
  | none => exact hinv
  | some e0 =>
    have heid0 := (mem_of_poolGet _ _ _ hpg).2
    have hmem0 := (mem_of_poolGet _ _ _ hpg).1
    have hcons0 := hinv.2.2.1 e0 hmem0
    cases hs : aget e0.components cid with
    | none =>
      simp only [removeComponentT_noslot w (e0.entFuel cid) e0 cid
        (by simp [Entity.entFuel]) hs, applyTrace, List.foldl]
      exact invariant_refresh w cids qtags st i e0 hinv hpg
    | some old =>
      have hcidold : (w old).cid = cid := hcons0 _ old hs
      simp only [removeComponentT_simple w (e0.entFuel cid) e0 cid old
        (by simp [Entity.entFuel]) hs (hw old), applyTrace, List.foldl]
      have hcons1 : CompConsistent w { e0 with components := adel e0.components cid } :=
        compConsistent_del w e0 _ hcons0
      have hm1 : hasAllB cids qtags
          (Query.updateHelper w { e0 with components := adel e0.components cid } (.comp old))
          = hasAllB cids qtags e0 := by
        obtain ⟨comps, hval, hlook⟩ := updateHelper_comp_value w
          { e0 with components := adel e0.components cid } old (hw old) (fun v _ => hw v)
        rw [hval]
        refine hasAllB_congr cids qtags _ _ ?_ (fun x => Iff.rfl)
        intro k
        rw [hlook k]
        by_cases hk : k = (w old).cid
        · subst hk
          simp [hcidold, hs]
        · have hk2 : k ≠ cid := by rw [← hcidold]; exact hk
          simp [hk, aget_adel_ne _ _ _ hk2]
      have h1 := applyEv_removed_inv w cids qtags st i e0
        { e0 with components := adel e0.components cid } (.comp old) hinv hpg heid0 hcons1 hm1
      exact invariant_refresh w cids qtags _ i _ h1.1 h1.2

theorem stepInv_addTag (w : World) (cids : List Nat) (qtags : List Tag)
    (st : EngSt) (i : Nat) (t : Tag) (hinv : StInv w cids qtags st) :
    StInv w cids qtags (step (hasAllB cids qtags) w st (.addTag i t)) := by
  simp only [step]
  cases hpg : poolGet st.pool i with
  | none => exact hinv
  | some e0 =>
    have heid0 := (mem_of_poolGet _ _ _ hpg).2
    have hmem0 := (mem_of_poolGet _ _ _ hpg).1
    have hcons0 := hinv.2.2.1 e0 hmem0
    simp only [Entity.addTagT]
    by_cases ht : e0.hasTag t
    · rw [if_pos ht]
      simp only [applyTrace, List.foldl]
      exact invariant_refresh w cids qtags st i e0 hinv hpg
    · rw [if_neg ht]
      simp only [applyTrace, List.foldl]
      have hcons1 : CompConsistent w { e0 with tags := e0.tags ++ [t] } :=
        fun k r hk => hcons0 k r hk
      have hm1 : hasAllB cids qtags
          (Query.updateHelper w { e0 with tags := e0.tags ++ [t] } (.tag t))
          = hasAllB cids qtags { e0 with tags := e0.tags ++ [t] } := by
        obtain ⟨tgs, hval, hlook⟩ := updateHelper_tag_value w
          { e0 with tags := e0.tags ++ [t] } t
        rw [hval]
        refine hasAllB_congr cids qtags _ _ (fun k => rfl) ?_
        intro x
        rw [hlook x]
        simp only [List.mem_append, List.mem_singleton]
        constructor
        · rintro (rfl | hx)
          · exact Or.inr rfl
          · exact hx
        · intro hx
          exact Or.inr hx
      have h1 := applyEv_added_inv w cids qtags st i e0
        { e0 with tags := e0.tags ++ [t] } (.tag t) hinv hpg heid0 hcons1 hm1
      exact invariant_refresh w cids qtags _ i _ h1.1 h1.2

theorem stepInv_removeTag (w : World) (cids : List Nat) (qtags : List Tag)
    (st : EngSt) (i : Nat) (t : Tag) (hinv : StInv w cids qtags st) :
    StInv w cids qtags (step (hasAllB cids qtags) w st (.removeTag i t)) := by
  simp only [step]
  cases hpg : poolGet st.pool i with
  | none => exact hinv
  | some e0 =>
    have heid0 := (mem_of_poolGet _ _ _ hpg).2
    have hmem0 := (mem_of_poolGet _ _ _ hpg).1
    have hcons0 := hinv.2.2.1 e0 hmem0
    simp only [Entity.removeTagT]
    by_cases ht : e0.hasTag t
    · rw [if_pos ht]
      simp only [applyTrace, List.foldl]
      have htm : t ∈ e0.tags := mem_of_contains_true ht
      have hcons1 : CompConsistent w
          { e0 with tags := e0.tags.filter (fun x => x ≠ t) } :=
        fun k r hk => hcons0 k r hk
      have hm1 : hasAllB cids qtags
          (Query.updateHelper w { e0 with tags := e0.tags.filter (fun x => x ≠ t) } (.tag t))
          = hasAllB cids qtags e0 := by
        obtain ⟨tgs, hval, hlook⟩ := updateHelper_tag_value w
          { e0 with tags := e0.tags.filter (fun x => x ≠ t) } t
        rw [hval]
        refine hasAllB_congr cids qtags _ _ (fun k => rfl) ?_
        intro x
        rw [hlook x]
        simp only [List.mem_filter]
        constructor
        · rintro (rfl | hx)
          · exact htm
          · exact hx.1
        · intro hx
          by_cases hxt : x = t
          · exact Or.inl hxt
          · exact Or.inr ⟨hx, by simp [hxt]⟩
      have h1 := applyEv_removed_inv w cids qtags st i e0
        { e0 with tags := e0.tags.filter (fun x => x ≠ t) } (.tag t) hinv hpg heid0 hcons1 hm1
      exact invariant_refresh w cids qtags _ i _ h1.1 h1.2
    · rw [if_neg ht]
      simp only [applyTrace, List.foldl]
      exact invariant_refresh w cids qtags st i e0 hinv hpg

theorem stepInv (w : World) (cids : List Nat) (qtags : List Tag)
    (hw : ∀ r, (w r).linked = false)
    (st : EngSt) (m : Mut) (hmk : MutOK w m) (hinv : StInv w cids qtags st) :
    StInv w cids qtags (step (hasAllB cids qtags) w st m) := by
  cases m with
  | addEntity e => exact stepInv_addEntity w cids qtags st e hmk hinv
  | removeEntity i => exact stepInv_removeEntity w cids qtags st i hinv
  | addComp i ref => exact stepInv_addComp w cids qtags hw st i ref hinv
  | removeComp i cid => exact stepInv_removeComp w cids qtags hw st i cid hinv
  | addTag i t => exact stepInv_addTag w cids qtags st i t hinv
  | removeTag i t => exact stepInv_removeTag w cids qtags st i t hinv

theorem stInv_engInit (w : World) (cids : List Nat) (qtags : List Tag) :
    StInv w cids qtags engInit := by
  refine ⟨List.nodup_nil, List.nodup_nil,
    fun e he => absurd he (List.not_mem_nil e), fun i => ?_⟩
  simp [engInit, poolGet]

theorem runMutsInv (w : World) (cids : List Nat) (qtags : List Tag)
    (hw : ∀ r, (w r).linked = false)
    (ms : List Mut) (st : EngSt)
    (hms : ∀ m ∈ ms, MutOK w m) (hinv : StInv w cids qtags st) :
    StInv w cids qtags (runMuts (hasAllB cids qtags) w st ms) := by
  induction ms generalizing st with
  | nil => exact hinv
  | cons m rest ih =>
    exact ih (step (hasAllB cids qtags) w st m)
      (fun m' hm' => hms m' (List.mem_cons_of_mem _ hm'))
      (stepInv w cids qtags hw st m (hms m (List.mem_cons_self _ _)) hinv)

/-- C1: for a query over required component classes `cids` and required tags
`qtags` attached to an engine from its initial state, after any sequence of
structural mutations (entity add/remove, component add/remove via the
instance's own class, tag add/remove) has been fully dispatched — in a world
of non-linked components, with `addEntity` payloads storing instances under
their own class ids — the query's entity list holds each entity id at most
once, and an id is in the list exactly when the pool holds an entity with
that id satisfying `hasAll` over `cids` and `qtags`. -/
theorem query_membership_invariant (w : World) (cids : List Nat) (qtags : List Tag)
    (ms : List Mut)
    (hw : ∀ r, (w r).linked = false)
    (hms : ∀ m ∈ ms, MutOK w m) :
    (runMuts (hasAllB cids qtags) w engInit ms).q.Nodup ∧
    (∀ i : Nat, i ∈ (runMuts (hasAllB cids qtags) w engInit ms).q ↔
      ∃ e, poolGet (runMuts (hasAllB cids qtags) w engInit ms).pool i = some e ∧
        hasAllB cids qtags e = true) := by
  have h := runMutsInv w cids qtags hw ms engInit hms (stInv_engInit w cids qtags)
  exact ⟨h.2.1, h.2.2.2⟩

/-- A concrete entity and mutation script exercising every mutation kind. -/
def ent5 : Entity := { eid := 5 }

def ms0 : List Mut :=
  [.addEntity ent5, .addComp 5 2, .addTag 5 (.num 1), .addComp 5 3,
   .removeComp 5 3, .removeTag 5 (.num 1), .addTag 5 (.num 1)]

theorem query_membership_invariant_witness :
    (runMuts (hasAllB [2] [Tag.num 1]) wNL engInit ms0).q.Nodup ∧
    (5 ∈ (runMuts (hasAllB [2] [Tag.num 1]) wNL engInit ms0).q ↔
      ∃ e, poolGet (runMuts (hasAllB [2] [Tag.num 1]) wNL engInit ms0).pool 5 = some e ∧
        hasAllB [2] [Tag.num 1] e = true) := by
  have h := query_membership_invariant wNL [2] [Tag.num 1] ms0
    (fun r => rfl)
    (by
      intro m hm
      simp only [ms0, List.mem_cons, List.not_mem_nil, or_false] at hm
      rcases hm with rfl | rfl | rfl | rfl | rfl | rfl | rfl
      · intro k r hk
        simp [ent5, aget] at hk
      all_goals trivial)
  exact ⟨h.1, h.2 5⟩

end TickKnock
